import Mathlib

/-!
Verification development for the py-questdb-client repository.

The first part embeds the build script `setup.py`: the `ilp_extension`
platform dispatch, the `cargo_path` / `export_cargo_to_path` environment
helpers, the `cargo_build` bootstrap routine and the `questdb_build_ext`
command class.  Effects (subprocess invocations, stderr writes, PATH
mutation) are reified as an event trace; process termination is an
explicit outcome.

The second part models, from the specification, the client core that the
repository links against (Buffer, Row Builder, Transport, Client): that
code is not under src/, so the definitions follow the specification's
words and are marked as such in their doc comments.
-/

namespace QuestDBSetup

/-- Observable effect of one step of the build script: a subprocess
invocation (`subprocess.check_call` argument list and optional working
directory), a write to stderr, a mutation of the PATH environment
variable, or the base `build_ext.run` of setuptools executing. -/
inductive Event where
  | subprocess (args : List String) (cwd : Option String)
  | stderrWrite (s : String)
  | setPath (newPath : String)
  | superRun
  deriving DecidableEq

/-- How the modelled process run ended: fell through normally, terminated
via `sys.exit code`, or aborted with an uncaught exception (a
`subprocess.check_call` on a failing command). -/
inductive Term where
  | normal
  | exited (code : Nat)
  | raised
  deriving DecidableEq

/-- The environment `cargo_build` runs in: filesystem facts it probes,
the environment variables it reads, and an oracle giving the success of
each subprocess it may launch. -/
structure World where
  /-- whether `(PROJ_ROOT / 'c-questdb-client' / 'src').exists()` -/
  submoduleSrcExists : Bool
  /-- whether `shutil.which('cargo')` finds an executable -/
  cargoOnPath : Bool
  /-- whether `cargo_path().exists()` -/
  cargoPathExists : Bool
  /-- value of `os.environ.get('SETUP_DO_GIT_SUBMODULE_INIT')` -/
  gitSubmoduleInit : Option String
  /-- value of `os.environ.get('SETUP_DO_RUSTUP_INSTALL')` -/
  rustupInstall : Option String
  /-- value of `os.environ['HOME']` -/
  home : String
  /-- value of `os.environ['PATH']` before the run -/
  path : String
  /-- success of `subprocess.check_call` per argument list -/
  procOk : List String → Bool

/-- Result of running (a phase of) the build script: the event trace, the
final value of the PATH environment variable, and how the run ended. -/
structure RunResult where
  events : List Event
  path : String
  term : Term

/-- `str(cargo_path())`, i.e. `pathlib.Path(os.environ['HOME']) / '.cargo'
/ 'bin'` rendered as a POSIX path (for a `HOME` value in the normalized
form pathlib itself produces, i.e. without a trailing slash). -/
def cargo_path (home : String) : String := home ++ "/.cargo/bin"

/-- The PATH value produced by `export_cargo_to_path`: the cargo binary
directory prepended to the previous value with a `:` separator. -/
def exportedPath (home path : String) : String :=
  cargo_path home ++ ":" ++ path

/-- Argument list of the submodule-fetch subprocess in `cargo_build`. -/
def gitCmd : List String :=
  ["git", "submodule", "update", "--init", "--recursive"]

/-- Argument list of the rustup-installer download in `cargo_build`. -/
def curlCmd : List String :=
  ["curl", "--proto", "=https", "--tlsv1.2", "-sSf",
   "https://sh.rustup.rs", "-o", "rustup-init.sh"]

/-- Argument list of the rustup-installer execution in `cargo_build`. -/
def bashCmd : List String := ["bash", "rustup-init.sh", "-y"]

/-- Argument list of the final compilation step of `cargo_build`. -/
def cargoBuildCmd : List String :=
  ["cargo", "build", "--release", "--features", "ffi"]

/-- The stderr guidance written when the submodule sources are missing
and `SETUP_DO_GIT_SUBMODULE_INIT` is not `'1'`. -/
def submoduleGuidance : List Event :=
  [.stderrWrite "Could not find `c-questdb-client` submodule.\n",
   .stderrWrite "You might need to run:\n",
   .stderrWrite "    git submodule update --init --recursive\n",
   .stderrWrite "\n",
   .stderrWrite "Alternatively specify the `SETUP_DO_GIT_SUBMODULE_INIT=1` env variable\n"]

/-- The stderr guidance written when no `cargo` executable can be found
and `SETUP_DO_RUSTUP_INSTALL` is not `'1'`. -/
def cargoGuidance : List Event :=
  [.stderrWrite "Could not find `cargo` executable.\n",
   .stderrWrite "You may install it via http://rustup.rs/.\n",
   .stderrWrite "\n",
   .stderrWrite "Alternatively specify the `SETUP_DO_RUSTUP_INSTALL=1` env variable\n"]

/-- Final step of `cargo_build`: `subprocess.check_call(['cargo', 'build',
'--release', '--features', 'ffi'], cwd='c-questdb-client')`. -/
def finalBuild (w : World) (evs : List Event) (path : String) : RunResult :=
  let evs := evs ++ [.subprocess cargoBuildCmd (some "c-questdb-client")]
  if w.procOk cargoBuildCmd then ⟨evs, path, .normal⟩ else ⟨evs, path, .raised⟩

/-- Second phase of `cargo_build` (`if shutil.which('cargo') is None`):
locate or install a cargo toolchain, then run the final build. -/
def cargoPhase (w : World) (evs : List Event) : RunResult :=
  if w.cargoOnPath then
    finalBuild w evs w.path
  else if w.cargoPathExists then
    finalBuild w (evs ++ [.setPath (exportedPath w.home w.path)])
      (exportedPath w.home w.path)
  else if w.rustupInstall = some "1" then
    if w.procOk curlCmd then
      if w.procOk bashCmd then
        finalBuild w
          (evs ++ [.subprocess curlCmd none, .subprocess bashCmd none,
                  .setPath (exportedPath w.home w.path)])
          (exportedPath w.home w.path)
      else
        ⟨evs ++ [.subprocess curlCmd none, .subprocess bashCmd none],
         w.path, .raised⟩
    else ⟨evs ++ [.subprocess curlCmd none], w.path, .raised⟩
  else ⟨evs ++ cargoGuidance, w.path, .exited 1⟩

/-- The `cargo_build` function of `setup.py`: ensure the submodule
sources are present, ensure a cargo toolchain is reachable, then compile
the native library. -/
def cargo_build (w : World) : RunResult :=
  if w.submoduleSrcExists then
    cargoPhase w []
  else if w.gitSubmoduleInit = some "1" then
    if w.procOk gitCmd then cargoPhase w [.subprocess gitCmd none]
    else ⟨[.subprocess gitCmd none], w.path, .raised⟩
  else ⟨submoduleGuidance, w.path, .exited 1⟩

/-- `questdb_build_ext.run`: invoke `cargo_build()`, then the base class
`build_ext.run` (which only executes if `cargo_build` fell through
without exiting or raising). -/
def questdb_build_ext_run (w : World) : RunResult :=
  match cargo_build w with
  | ⟨evs, p, .normal⟩ => ⟨evs ++ [.superRun], p, .normal⟩
  | r => r

/-- A process environment, as the partial map `os.environ`. -/
def Environ : Type := String → Option String

/-- The `export_cargo_to_path` function of `setup.py`:
`os.environ['PATH'] = str(cargo_path()) + ':' + os.environ['PATH']`.
Reads `HOME` (through `cargo_path()`) and `PATH`; a missing key is a
`KeyError`, modelled as `none`. -/
def export_cargo_to_path (env : Environ) : Option Environ :=
  match env "HOME" with
  | none => none
  | some home =>
    match env "PATH" with
    | none => none
    | some path =>
      some (fun k => if k = "PATH" then some (exportedPath home path) else env k)

/-- The keyword arguments of the `setuptools.extension.Extension`
constructed by `ilp_extension`. -/
structure Extension where
  name : String
  sources : List String
  include_dirs : List String
  library_dirs : List String
  libraries : List String
  extra_compile_args : List String
  extra_link_args : List String
  extra_objects : List String
  deriving DecidableEq

/-- The `ilp_extension` function of `setup.py`, parametrised by
`PROJ_ROOT` (the directory containing `setup.py`) and `sys.platform`.
An unsupported platform raises `NotImplementedError`, modelled as
`Except.error` carrying the exception message. -/
def ilp_extension (projRoot platform : String) : Except String Extension :=
  let libDir := projRoot ++ "/c-questdb-client/target/release"
  if platform = "darwin" then
    .ok { name := "questdb.ilp"
          sources := ["src/questdb/ilp.pyx"]
          include_dirs := ["c-questdb-client/include"]
          library_dirs := []
          libraries := []
          extra_compile_args := []
          extra_link_args := ["-framework", "Security"]
          extra_objects := [libDir ++ "/libquestdb_client.a"] }
  else if platform = "win32" then
    .ok { name := "questdb.ilp"
          sources := ["src/questdb/ilp.pyx"]
          include_dirs := ["c-questdb-client/include"]
          library_dirs := []
          libraries := ["wsock32", "ws2_32", "AdvAPI32", "bcrypt", "UserEnv"]
          extra_compile_args := []
          extra_link_args := []
          extra_objects := [libDir ++ "/questdb_client.lib"] }
  else if platform = "linux" then
    .ok { name := "questdb.ilp"
          sources := ["src/questdb/ilp.pyx"]
          include_dirs := ["c-questdb-client/include"]
          library_dirs := []
          libraries := []
          extra_compile_args := []
          extra_link_args := []
          extra_objects := [libDir ++ "/libquestdb_client.a"] }
  else
    .error ("Unsupported platform: " ++ platform)

/-- The event recording the final compilation subprocess of
`cargo_build`, with its working directory. -/
def cargoEv : Event := .subprocess cargoBuildCmd (some "c-questdb-client")

/-- A concrete world in which every probe succeeds, used to witness the
build-script theorems. -/
def demoWorld : World :=
  { submoduleSrcExists := true
    cargoOnPath := true
    cargoPathExists := false
    gitSubmoduleInit := none
    rustupInstall := none
    home := "/home/user"
    path := "/usr/bin"
    procOk := fun _ => true }

end QuestDBSetup

namespace QuestDBClient

/-- Modelled from the spec: the error taxonomy of the client core
(section 7 of the specification), which is not present under src/. -/
inductive Err where
  | invalidNameError
  | invalidFieldOrderError
  | duplicateTimestampError
  | useAfterFinalizeError
  | transportError
  | validationError
  deriving DecidableEq

/-- The decimal digit character for `d` (meaningful for `d < 10`). -/
def digitCh (d : Nat) : Char := Char.ofNat (48 + d)

/-- Whether `c` is one of the characters `0`..`9`. -/
def isDigitCh (c : Char) : Bool := 48 ≤ c.toNat && c.toNat ≤ 57

/-- The numeric value of a decimal digit character. -/
def charDigit (c : Char) : Nat := c.toNat - 48

/-- Fuelled big-endian decimal rendering of a natural number; the fuel
only bounds the recursion and any fuel above the number suffices. -/
def natToCharsAux : Nat → Nat → List Char → List Char
  | 0, _, acc => acc
  | fuel + 1, n, acc =>
    if n < 10 then digitCh n :: acc
    else natToCharsAux fuel (n / 10) (digitCh (n % 10) :: acc)

/-- Big-endian decimal rendering of a natural number. -/
def natToChars (n : Nat) : List Char := natToCharsAux (n + 1) n []

/-- Modelled from the spec: integers serialize without a fractional
component, in plain decimal with a leading minus sign when negative. -/
def intToChars (i : Int) : List Char :=
  if i < 0 then '-' :: natToChars i.natAbs else natToChars i.toNat

/-- Accumulate a decimal digit string into a natural number. -/
def parseNatFold (l : List Char) : Nat :=
  l.foldl (fun a c => a * 10 + charDigit c) 0

/-- Reference parse of a nonempty all-digit string. -/
def parseNatChars (l : List Char) : Option Nat :=
  if !l.isEmpty && l.all isDigitCh then some (parseNatFold l) else none

/-- Reference parse of an optionally minus-signed decimal integer. -/
def parseIntChars : List Char → Option Int
  | [] => none
  | c :: rest =>
    if c = '-' then (parseNatChars rest).map (fun n => -(n : Int))
    else (parseNatChars (c :: rest)).map (fun n => (n : Int))

/-- Modelled from the spec: the protocol-reserved characters (space,
comma, equals sign, double quote, backslash) plus the row terminator;
this model takes the specification's sanctioned option of rejecting
rather than escaping them. -/
def reservedChar (c : Char) : Bool :=
  c = ' ' || c = ',' || c = '=' || c = '"' || c = '\\' || c = '\n'

/-- A character sequence free of protocol-reserved characters. -/
def plainOk (l : List Char) : Bool := l.all (fun c => !reservedChar c)

/-- Modelled from the spec: a legal table/symbol/column name is nonempty
and free of protocol-reserved characters. -/
def nameOk (l : List Char) : Bool := !l.isEmpty && plainOk l

/-- Modelled from the spec: a typed column value — string, integer,
float (here in exact decimal form: integer part and fractional digits),
boolean, or timestamp. -/
inductive ColValue where
  | vStr (s : List Char)
  | vInt (i : Int)
  | vFloat (ip : Int) (frac : List (Fin 10))
  | vBool (b : Bool)
  | vTs (t : Int)
  deriving DecidableEq

/-- Modelled from the spec: wire form of a column value — strings
quoted, integers suffixed `i`, booleans as `t`/`f`, timestamp columns
suffixed `t`, floats in decimal form. -/
def renderVal : ColValue → List Char
  | .vStr s => '"' :: (s ++ ['"'])
  | .vInt i => intToChars i ++ ['i']
  | .vFloat ip frac => intToChars ip ++ '.' :: frac.map (fun d => digitCh d.val)
  | .vBool true => ['t']
  | .vBool false => ['f']
  | .vTs t => intToChars t ++ ['t']

/-- Serializability of a column value: string contents free of reserved
characters, floats with a nonempty fractional part. -/
def colValOk : ColValue → Bool
  | .vStr s => plainOk s
  | .vFloat _ frac => !frac.isEmpty
  | _ => true

/-- Modelled from the spec: one field of a row — a symbol (tag), a
typed column, or the designated timestamp. -/
inductive Field where
  | symbol (name value : List Char)
  | column (name : List Char) (value : ColValue)
  | tsField (ts : Int)
  deriving DecidableEq

/-- Validity of a single field's names and values. -/
def fieldOk : Field → Bool
  | .symbol n v => nameOk n && plainOk v
  | .column n v => nameOk n && colValOk v
  | .tsField _ => true

/-- Progress of the field-order grammar: no field yet, inside the
symbol section, inside the column section. -/
inductive OrdState where
  | sStart
  | sSyms
  | sCols
  deriving DecidableEq

/-- Modelled from the spec: the structural row grammar — all symbols
precede all columns, and the designated timestamp (if any) is last and
follows at least one field. -/
def orderOkFrom : OrdState → List Field → Bool
  | _, [] => true
  | s, .symbol _ _ :: rest =>
    match s with
    | .sCols => false
    | _ => orderOkFrom .sSyms rest
  | _, .column _ _ :: rest => orderOkFrom .sCols rest
  | s, .tsField _ :: rest =>
    match s with
    | .sStart => false
    | _ => rest.isEmpty

/-- Number of designated-timestamp fields in a field sequence. -/
def countTs (fields : List Field) : Nat :=
  (fields.filterMap fun f =>
    match f with
    | .tsField t => some t
    | _ => none).length

/-- Modelled from the spec: a fully valid row input — valid table name,
at least one field, valid field names/values, at most one designated
timestamp, and symbols before columns with the timestamp last. -/
def validRow (table : List Char) (fields : List Field) : Bool :=
  nameOk table && !fields.isEmpty && fields.all fieldOk &&
    countTs fields ≤ 1 && orderOkFrom .sStart fields

/-- The symbol fields of a field sequence, in order. -/
def symsOf (fields : List Field) : List (List Char × List Char) :=
  fields.filterMap fun f =>
    match f with
    | .symbol n v => some (n, v)
    | _ => none

/-- The column fields of a field sequence, in order. -/
def colsOf (fields : List Field) : List (List Char × ColValue) :=
  fields.filterMap fun f =>
    match f with
    | .column n v => some (n, v)
    | _ => none

/-- The designated timestamp of a field sequence, if any. -/
def tsOf (fields : List Field) : Option Int :=
  (fields.filterMap fun f =>
    match f with
    | .tsField t => some t
    | _ => none).head?

/-- Wire chunk of one symbol: a comma, the name, `=`, the value. -/
def symChunk (s : List Char × List Char) : List Char :=
  ',' :: (s.1 ++ '=' :: s.2)

/-- Wire token of one column: the name, `=`, the rendered value. -/
def colToken (c : List Char × ColValue) : List Char :=
  c.1 ++ '=' :: renderVal c.2

/-- Concatenation of a list of chunks. -/
def concatAll : List (List Char) → List Char
  | [] => []
  | t :: ts => t ++ concatAll ts

/-- Tokens joined by a single separator character. -/
def joinSep (sep : Char) : List (List Char) → List Char
  | [] => []
  | [t] => t
  | t :: ts => t ++ sep :: joinSep sep ts

/-- Modelled from the spec: the serialized line of one row —
`table,sym=val,... col=val,... timestamp\n`, with the column section
(preceded by one space) present only when there are columns and the
timestamp section (preceded by one space) only when one was given. -/
def rowLine (table : List Char) (fields : List Field) : List Char :=
  table ++ concatAll ((symsOf fields).map symChunk) ++
    (if (colsOf fields).isEmpty then []
     else ' ' :: joinSep ',' ((colsOf fields).map colToken)) ++
    (match tsOf fields with
     | some t => ' ' :: intToChars t
     | none => []) ++ ['\n']

/-- Modelled from the spec: the Buffer — a growable byte sequence plus
a count of completed rows. -/
structure Buffer where
  bytes : List Char
  rowCount : Nat
  deriving DecidableEq

/-- `peek_bytes()`: the accumulated bytes, without mutation. -/
def Buffer.peek_bytes (b : Buffer) : List Char := b.bytes

/-- `clear()`: reset the sequence and the row count to empty. -/
def Buffer.clear (_ : Buffer) : Buffer := ⟨[], 0⟩

/-- `len()`: the current row count. -/
def Buffer.len (b : Buffer) : Nat := b.rowCount

/-- The Buffer in its initial state. -/
def Buffer.empty : Buffer := ⟨[], 0⟩

/-- Modelled from the spec: `append_row` validates one row and, on
success, serializes it at the end of the byte sequence, advancing the
row count; name violations report `InvalidNameError`, value violations
a `ValidationError`, a second designated timestamp
`DuplicateTimestampError`, a symbol after a column (or a non-final
timestamp) `InvalidFieldOrderError`, and an empty row a
`ValidationError`. -/
def append_row (b : Buffer) (table : List Char) (fields : List Field) :
    Except Err Buffer :=
  if !(nameOk table && (fields.all fun f =>
      match f with
      | .symbol n _ => nameOk n
      | .column n _ => nameOk n
      | .tsField _ => true)) then .error .invalidNameError
  else if !fields.all fieldOk then .error .validationError
  else if 1 < countTs fields then .error .duplicateTimestampError
  else if !orderOkFrom .sStart fields then .error .invalidFieldOrderError
  else if fields.isEmpty then .error .validationError
  else .ok ⟨b.bytes ++ rowLine table fields, b.rowCount + 1⟩

/-- Modelled from the spec: the states of the Row Builder's field-order
state machine. -/
inductive BState where
  | start
  | inSymbols
  | inColumns
  | finalized
  deriving DecidableEq

/-- Modelled from the spec: a Row Builder — the bytes of the row under
construction (not yet visible to the Buffer) and the machine state. -/
structure RowBuilder where
  pending : List Char
  state : BState
  deriving DecidableEq

/-- Modelled from the spec: `row(table_name)` — a fresh Row Builder
holding the validated table name. -/
def mkRowBuilder (table : List Char) : Except Err RowBuilder :=
  if nameOk table then .ok ⟨table, .start⟩ else .error .invalidNameError

/-- One Row Builder operation: add a symbol, add a column, or finalize
with the designated timestamp (`at`). -/
inductive Op where
  | opSymbol (name value : List Char)
  | opColumn (name : List Char) (value : ColValue)
  | opAt (ts : Int)
  deriving DecidableEq

/-- Modelled from the spec: one step of the Row Builder bound to a
Buffer.  Errors leave both the Buffer and the builder untouched; only a
successful `at` finalization commits the pending bytes (with the
timestamp and a trailing newline) to the Buffer. -/
def stepOp (b : Buffer) (rb : RowBuilder) : Op → Option Err × Buffer × RowBuilder
  | .opSymbol n v =>
    match rb.state with
    | .finalized => (some .useAfterFinalizeError, b, rb)
    | .inColumns => (some .invalidFieldOrderError, b, rb)
    | _ =>
      if nameOk n && plainOk v then
        (none, b, ⟨rb.pending ++ symChunk (n, v), .inSymbols⟩)
      else (some .invalidNameError, b, rb)
  | .opColumn n v =>
    match rb.state with
    | .finalized => (some .useAfterFinalizeError, b, rb)
    | st =>
      if nameOk n && colValOk v then
        (none, b,
         ⟨rb.pending ++ (if st = .inColumns then ',' else ' ') :: colToken (n, v),
          .inColumns⟩)
      else (some .invalidNameError, b, rb)
  | .opAt ts =>
    match rb.state with
    | .finalized => (some .useAfterFinalizeError, b, rb)
    | .start => (some .validationError, b, rb)
    | _ =>
      (none,
       ⟨b.bytes ++ (rb.pending ++ ' ' :: intToChars ts ++ ['\n']), b.rowCount + 1⟩,
       ⟨[], .finalized⟩)

/-- The Buffer invariant of the specification: the byte sequence is
empty or ends on a newline-terminated row boundary. -/
def wfBuf (b : Buffer) : Prop :=
  b.bytes = [] ∨ b.bytes.getLast? = some '\n'

/-- A network interaction performed by the Transport. -/
inductive NetCall where
  | connectCall
  | sendCall (payload : List Char)
  deriving DecidableEq

/-- Modelled from the spec: the Transport — connection status plus the
log of network calls it has performed. -/
structure Transport where
  connected : Bool
  calls : List NetCall
  deriving DecidableEq

/-- Modelled from the spec: the Client façade composing a Buffer and a
Transport. -/
structure Client where
  buf : Buffer
  transport : Transport
  deriving DecidableEq

/-- Modelled from the spec: `flush()` — a no-op without any network
call when the Buffer is empty; otherwise it (lazily connects and) sends
`peek_bytes()` via the Transport, clears the Buffer only when the send
succeeded, and leaves the Buffer intact reporting `TransportError` when
it failed.  The `sendOk` argument is the environment's verdict on the
blocking send. -/
def Client.flush (c : Client) (sendOk : Bool) : Option Err × Client :=
  if c.buf.bytes.isEmpty then (none, c)
  else
    let t1 : Transport :=
      if c.transport.connected then c.transport
      else ⟨true, c.transport.calls ++ [.connectCall]⟩
    let t2 : Transport := ⟨t1.connected, t1.calls ++ [.sendCall c.buf.peek_bytes]⟩
    if sendOk then (none, ⟨c.buf.clear, t2⟩)
    else (some .transportError, ⟨c.buf, t2⟩)

/-- The reference parser's view of one parsed row. -/
structure Row where
  table : List Char
  symbols : List (List Char × List Char)
  columns : List (List Char × ColValue)
  timestamp : Option Int
  deriving DecidableEq

/-- The fields of a parsed row, rebuilt as a field sequence. -/
def fieldsOfRow (r : Row) : List Field :=
  r.symbols.map (fun s => Field.symbol s.1 s.2) ++
    r.columns.map (fun c => Field.column c.1 c.2) ++
    (match r.timestamp with
     | some t => [Field.tsField t]
     | none => [])

/-- Split a character list at every occurrence of a separator. -/
def splitChar (sep : Char) : List Char → List (List Char)
  | [] => [[]]
  | c :: cs =>
    if c = sep then [] :: splitChar sep cs
    else
      match splitChar sep cs with
      | [] => [[c]]
      | t :: ts => (c :: t) :: ts

/-- Reference parse of a `name=value` token, splitting at the first
equals sign. -/
def parseEq (tok : List Char) : Option (List Char × List Char) :=
  match tok.dropWhile (fun c => c != '=') with
  | [] => none
  | c :: v =>
    if c = '=' then some (tok.takeWhile (fun c => c != '='), v) else none

/-- The digit denoted by a character, as an element of `Fin 10`. -/
def charFin (c : Char) : Option (Fin 10) :=
  if h : c.toNat - 48 < 10 then
    if isDigitCh c then some ⟨c.toNat - 48, h⟩ else none
  else none

/-- Effectful map over `Option`, collecting all results. -/
def optMapM (f : α → Option β) : List α → Option (List β)
  | [] => some []
  | a :: l =>
    match f a, optMapM f l with
    | some b, some bs => some (b :: bs)
    | _, _ => none

/-- Reference parse of a nonempty fractional-digit string. -/
def parseFrac (l : List Char) : Option (List (Fin 10)) :=
  if l.isEmpty then none else optMapM charFin l

/-- Reference parse of the remainder of a quoted string token (the part
after the opening quote): everything up to a final closing quote. -/
def parseQuoted (rest0 : List Char) : Option ColValue :=
  match rest0.reverse with
  | [] => none
  | cl :: sR => if cl = '"' then some (.vStr sR.reverse) else none

/-- Reference parse of a decimal float token: an integer part, a dot,
and fractional digits. -/
def parseFloatTok (val : List Char) : Option ColValue :=
  match val.dropWhile (fun c => c != '.') with
  | [] => none
  | cd :: frac =>
    if cd = '.' then
      match parseIntChars (val.takeWhile (fun c => c != '.')),
          parseFrac frac with
      | some ip, some fr => some (.vFloat ip fr)
      | _, _ => none
    else none

/-- Reference parse of an unquoted value token, classified by its last
character: `i`-suffixed integer, `t`/`f` boolean, `t`-suffixed
timestamp, else a decimal float. -/
def parseSuffixed (val : List Char) : Option ColValue :=
  match val.reverse with
  | [] => none
  | cl :: restR =>
    if cl = 'i' then (parseIntChars restR.reverse).map .vInt
    else if cl = 't' then
      if restR.isEmpty then some (.vBool true)
      else (parseIntChars restR.reverse).map .vTs
    else if cl = 'f' then
      if restR.isEmpty then some (.vBool false) else none
    else parseFloatTok val

/-- Reference parse of a column value token: quoted string, `i`-suffixed
integer, `t`/`f` boolean, `t`-suffixed timestamp, or decimal float. -/
def parseVal (val : List Char) : Option ColValue :=
  match val with
  | [] => none
  | c0 :: rest0 =>
    if c0 = '"' then parseQuoted rest0 else parseSuffixed (c0 :: rest0)

/-- Reference parse of one `name=value` column token. -/
def parseColTok (tok : List Char) : Option (List Char × ColValue) :=
  match parseEq tok with
  | none => none
  | some p => (parseVal p.2).map (fun cv => (p.1, cv))

/-- Reference parse of the first line segment: the table name followed
by comma-separated `symbol=value` tokens. -/
def parseTableSyms (seg : List Char) :
    Option (List Char × List (List Char × List Char)) :=
  match splitChar ',' seg with
  | [] => none
  | table :: symToks =>
    (optMapM parseEq symToks).map (fun syms => (table, syms))

/-- Reference parse of the column segment: comma-separated column
tokens. -/
def parseCols (seg : List Char) : Option (List (List Char × ColValue)) :=
  optMapM parseColTok (splitChar ',' seg)

/-- Reference parse of the newline-stripped body of one row line: split
on single spaces into the table/symbol segment, an optional column
segment (recognized by the equals sign its tokens contain), and an
optional integer timestamp. -/
def parseRowBody (body : List Char) : Option Row :=
  match splitChar ' ' body with
  | [seg1] =>
    (parseTableSyms seg1).map (fun p => ⟨p.1, p.2, [], none⟩)
  | [seg1, seg2] =>
    match parseTableSyms seg1 with
    | none => none
    | some p =>
      if seg2.any (fun c => c == '=') then
        (parseCols seg2).map (fun cols => ⟨p.1, p.2, cols, none⟩)
      else
        (parseIntChars seg2).map (fun ts => ⟨p.1, p.2, [], some ts⟩)
  | [seg1, seg2, seg3] =>
    match parseTableSyms seg1 with
    | none => none
    | some p =>
      match parseCols seg2, parseIntChars seg3 with
      | some cols, some ts => some ⟨p.1, p.2, cols, some ts⟩
      | _, _ => none
  | _ => none

/-- Modelled from the spec: the reference line-protocol parser for one
newline-terminated row. -/
def parseRow (cs : List Char) : Option Row :=
  match cs.reverse with
  | [] => none
  | cl :: bodyR =>
    if cl = '\n' then parseRowBody bodyR.reverse else none

end QuestDBClient

namespace QuestDBSetup

lemma finalBuild_events (w : World) (evs : List Event) (p : String) :
    (finalBuild w evs p).events = evs ++ [cargoEv] := by
  unfold finalBuild
  split <;> rfl

lemma finalBuild_path (w : World) (evs : List Event) (p : String) :
    (finalBuild w evs p).path = p := by
  unfold finalBuild
  split <;> rfl

lemma finalBuild_term (w : World) (evs : List Event) (p : String) :
    (finalBuild w evs p).term = .normal ↔ w.procOk cargoBuildCmd = true := by
  unfold finalBuild
  split <;> simp_all

lemma cargoPhase_normal_shape (w : World) (evs : List Event)
    (h : (cargoPhase w evs).term = .normal) :
    ∃ mid, (cargoPhase w evs).events = (evs ++ mid) ++ [cargoEv] ∧
      (∀ e ∈ mid, e ≠ cargoEv ∧ e ≠ .superRun) ∧
      w.procOk cargoBuildCmd = true := by
  unfold cargoPhase at *
  split_ifs at * with h1 h2 h3 h4 h5
  · exact ⟨[], by rw [finalBuild_events]; simp, by simp,
      (finalBuild_term w _ _).mp h⟩
  · exact ⟨[.setPath (exportedPath w.home w.path)],
      by rw [finalBuild_events], by simp [cargoEv], (finalBuild_term w _ _).mp h⟩
  · refine ⟨[.subprocess curlCmd none, .subprocess bashCmd none,
      .setPath (exportedPath w.home w.path)],
      by rw [finalBuild_events], ?_, (finalBuild_term w _ _).mp h⟩
    intro e he
    have he' : e = .subprocess curlCmd none ∨ e = .subprocess bashCmd none ∨
        e = .setPath (exportedPath w.home w.path) := by simpa using he
    rcases he' with rfl | rfl | rfl <;> exact ⟨by simp [cargoEv], by simp⟩

lemma cargoPhase_no_superRun (w : World) (evs : List Event)
    (h : Event.superRun ∉ evs) :
    Event.superRun ∉ (cargoPhase w evs).events := by
  unfold cargoPhase
  split_ifs <;>
    simp_all [finalBuild_events, cargoEv, cargoGuidance]

lemma cargo_build_no_superRun (w : World) :
    Event.superRun ∉ (cargo_build w).events := by
  unfold cargo_build
  split_ifs with h1 h2 h3
  · exact cargoPhase_no_superRun w [] (by simp)
  · exact cargoPhase_no_superRun w [.subprocess gitCmd none] (by simp)
  · simp
  · simp [submoduleGuidance]

lemma cargoPhase_events_extend (w : World) (evs : List Event) :
    ∃ rest, (cargoPhase w evs).events = evs ++ rest := by
  unfold cargoPhase
  split_ifs
  · exact ⟨_, finalBuild_events w evs w.path⟩
  · exact ⟨_, by rw [finalBuild_events, List.append_assoc]⟩
  · exact ⟨_, by rw [finalBuild_events, List.append_assoc]⟩
  · exact ⟨_, rfl⟩
  · exact ⟨_, rfl⟩
  · exact ⟨_, rfl⟩

lemma cargo_build_normal_shape (w : World)
    (h : (cargo_build w).term = .normal) :
    ∃ pre, (cargo_build w).events = pre ++ [cargoEv] ∧
      cargoEv ∉ pre ∧ Event.superRun ∉ pre ∧
      w.procOk cargoBuildCmd = true := by
  unfold cargo_build at *
  split_ifs at * with h1 h2 h3
  · obtain ⟨mid, hev, hmid, hok⟩ := cargoPhase_normal_shape w [] h
    refine ⟨mid, by rw [hev]; simp, ?_, ?_, hok⟩
    · intro hc
      exact (hmid _ hc).1 rfl
    · intro hc
      exact (hmid _ hc).2 rfl
  · obtain ⟨mid, hev, hmid, hok⟩ :=
      cargoPhase_normal_shape w [.subprocess gitCmd none] h
    refine ⟨.subprocess gitCmd none :: mid, by rw [hev]; simp, ?_, ?_, hok⟩
    · intro hc
      rcases List.mem_cons.mp hc with hc | hc
      · exact absurd hc.symm (by simp [cargoEv, gitCmd, cargoBuildCmd])
      · exact (hmid _ hc).1 rfl
    · intro hc
      rcases List.mem_cons.mp hc with hc | hc
      · exact absurd hc.symm (by simp)
      · exact (hmid _ hc).2 rfl

end QuestDBSetup

namespace QuestDBSetup

/-- Claim C1: whenever the base `build_ext.run` of setuptools executes
during `questdb_build_ext.run`, it is immediately preceded in the event
trace by exactly one invocation of `cargo build --release --features
ffi` with working directory `c-questdb-client`, and that subprocess
returned successfully. -/
theorem build_ext_runs_after_cargo (w : World)
    (h : Event.superRun ∈ (questdb_build_ext_run w).events) :
    ∃ pre, (questdb_build_ext_run w).events = pre ++ [cargoEv, .superRun] ∧
      cargoEv ∉ pre ∧ Event.superRun ∉ pre ∧
      w.procOk cargoBuildCmd = true := by
  unfold questdb_build_ext_run at h ⊢
  rcases hcb : cargo_build w with ⟨evs, p, t⟩
  rw [hcb] at h
  cases t
  case normal =>
    obtain ⟨pre, hev, hc, hs, hok⟩ :=
      cargo_build_normal_shape w (by rw [hcb])
    rw [hcb] at hev
    have hev' : evs = pre ++ [cargoEv] := hev
    refine ⟨pre, ?_, hc, hs, hok⟩
    show evs ++ [Event.superRun] = pre ++ [cargoEv, Event.superRun]
    rw [hev']
    simp
  case exited c =>
    have hm := cargo_build_no_superRun w
    rw [hcb] at hm
    exact absurd h hm
  case raised =>
    have hm := cargo_build_no_superRun w
    rw [hcb] at hm
    exact absurd h hm

/-- Witness for C1 at a concrete world where all probes succeed. -/
theorem build_ext_runs_after_cargo_witness :
    ∃ pre, (questdb_build_ext_run demoWorld).events =
        pre ++ [cargoEv, .superRun] ∧
      cargoEv ∉ pre ∧ Event.superRun ∉ pre ∧
      demoWorld.procOk cargoBuildCmd = true :=
  build_ext_runs_after_cargo demoWorld (by decide)

/-- Claim C2: when the submodule sources are missing, `cargo_build`
either runs `git submodule update --init --recursive` first (when
`SETUP_DO_GIT_SUBMODULE_INIT` is `'1'`), or writes the guidance to
stderr and exits with status 1 without launching any subprocess. -/
theorem cargo_build_missing_submodule (w : World)
    (h : w.submoduleSrcExists = false) :
    (w.gitSubmoduleInit = some "1" →
      (cargo_build w).events.head? = some (.subprocess gitCmd none)) ∧
    (w.gitSubmoduleInit ≠ some "1" →
      cargo_build w = ⟨submoduleGuidance, w.path, .exited 1⟩ ∧
      ∀ args cwd, Event.subprocess args cwd ∉ (cargo_build w).events) := by
  constructor
  · intro hg
    have hcb : cargo_build w =
        if w.procOk gitCmd then cargoPhase w [.subprocess gitCmd none]
        else ⟨[.subprocess gitCmd none], w.path, .raised⟩ := by
      unfold cargo_build
      simp [h, hg]
    rw [hcb]
    split
    · obtain ⟨rest, hrest⟩ :=
        cargoPhase_events_extend w [.subprocess gitCmd none]
      rw [hrest]
      rfl
    · rfl
  · intro hg
    have hcb : cargo_build w = ⟨submoduleGuidance, w.path, .exited 1⟩ := by
      unfold cargo_build
      simp [h, hg]
    refine ⟨hcb, ?_⟩
    intro args cwd
    rw [hcb]
    simp [submoduleGuidance]

/-- Witness for C2 at a concrete world without the submodule sources and
without the opt-in environment variable. -/
theorem cargo_build_missing_submodule_witness :
    ({ demoWorld with submoduleSrcExists := false
                      gitSubmoduleInit := none : World}.gitSubmoduleInit
          = some "1" →
      (cargo_build { demoWorld with submoduleSrcExists := false
                                    gitSubmoduleInit := none }).events.head?
        = some (.subprocess gitCmd none)) ∧
    ({ demoWorld with submoduleSrcExists := false
                      gitSubmoduleInit := none : World}.gitSubmoduleInit
          ≠ some "1" →
      cargo_build { demoWorld with submoduleSrcExists := false
                                   gitSubmoduleInit := none }
        = ⟨submoduleGuidance,
           ({ demoWorld with submoduleSrcExists := false
                             gitSubmoduleInit := none : World}).path,
           .exited 1⟩ ∧
      ∀ args cwd, Event.subprocess args cwd ∉
        (cargo_build { demoWorld with submoduleSrcExists := false
                                      gitSubmoduleInit := none }).events) :=
  cargo_build_missing_submodule
    { demoWorld with submoduleSrcExists := false, gitSubmoduleInit := none }
    rfl

/-- Claim C9: with the submodule present but no `cargo` on the PATH,
`cargo_build` prepends `$HOME/.cargo/bin` to PATH when that directory
exists (running no installer); otherwise it exits with status 1 unless
`SETUP_DO_RUSTUP_INSTALL` is `'1'`, in which case it downloads
`rustup-init.sh` via curl and runs it via bash before amending PATH. -/
theorem cargo_build_toolchain_bootstrap (w : World)
    (h1 : w.submoduleSrcExists = true) (h2 : w.cargoOnPath = false) :
    (w.cargoPathExists = true →
      (cargo_build w).path = cargo_path w.home ++ ":" ++ w.path ∧
      Event.subprocess curlCmd none ∉ (cargo_build w).events ∧
      Event.subprocess bashCmd none ∉ (cargo_build w).events) ∧
    (w.cargoPathExists = false → w.rustupInstall ≠ some "1" →
      (cargo_build w).term = .exited 1 ∧
      Event.subprocess curlCmd none ∉ (cargo_build w).events ∧
      Event.subprocess bashCmd none ∉ (cargo_build w).events) ∧
    (w.cargoPathExists = false → w.rustupInstall = some "1" →
      w.procOk curlCmd = true → w.procOk bashCmd = true →
      (cargo_build w).events =
        [.subprocess curlCmd none, .subprocess bashCmd none,
         .setPath (cargo_path w.home ++ ":" ++ w.path), cargoEv] ∧
      (cargo_build w).path = cargo_path w.home ++ ":" ++ w.path) := by
  have hcb : cargo_build w = cargoPhase w [] := by
    unfold cargo_build
    rw [h1]
    simp
  refine ⟨?_, ?_, ?_⟩
  · intro h3
    have hf : cargo_build w =
        finalBuild w [.setPath (exportedPath w.home w.path)]
          (exportedPath w.home w.path) := by
      rw [hcb]
      unfold cargoPhase
      simp [h2, h3]
    rw [hf, finalBuild_path, finalBuild_events]
    exact ⟨rfl, by simp [cargoEv, curlCmd, cargoBuildCmd],
      by simp [cargoEv, bashCmd, cargoBuildCmd]⟩
  · intro h3 h4
    have hf : cargo_build w = ⟨cargoGuidance, w.path, .exited 1⟩ := by
      rw [hcb]
      unfold cargoPhase
      simp [h2, h3, h4]
    rw [hf]
    exact ⟨rfl, by simp [cargoGuidance], by simp [cargoGuidance]⟩
  · intro h3 h4 h5 h6
    have hf : cargo_build w =
        finalBuild w
          [.subprocess curlCmd none, .subprocess bashCmd none,
           .setPath (exportedPath w.home w.path)]
          (exportedPath w.home w.path) := by
      rw [hcb]
      unfold cargoPhase
      simp [h2, h3, h4, h5, h6]
    rw [hf, finalBuild_path, finalBuild_events]
    exact ⟨by simp [cargoEv, exportedPath], by simp [exportedPath]⟩

/-- Witness for C9 at a concrete world where cargo is absent from PATH
but `$HOME/.cargo/bin` exists. -/
theorem cargo_build_toolchain_bootstrap_witness :
    (({ demoWorld with cargoOnPath := false
                       cargoPathExists := true : World}).cargoPathExists = true →
      (cargo_build { demoWorld with cargoOnPath := false
                                    cargoPathExists := true }).path
          = cargo_path demoWorld.home ++ ":" ++ demoWorld.path ∧
      Event.subprocess curlCmd none ∉
        (cargo_build { demoWorld with cargoOnPath := false
                                      cargoPathExists := true }).events ∧
      Event.subprocess bashCmd none ∉
        (cargo_build { demoWorld with cargoOnPath := false
                                      cargoPathExists := true }).events) ∧
    (({ demoWorld with cargoOnPath := false
                       cargoPathExists := true : World}).cargoPathExists = false →
      ({ demoWorld with cargoOnPath := false
                        cargoPathExists := true : World}).rustupInstall ≠ some "1" →
      (cargo_build { demoWorld with cargoOnPath := false
                                    cargoPathExists := true }).term = .exited 1 ∧
      Event.subprocess curlCmd none ∉
        (cargo_build { demoWorld with cargoOnPath := false
                                      cargoPathExists := true }).events ∧
      Event.subprocess bashCmd none ∉
        (cargo_build { demoWorld with cargoOnPath := false
                                      cargoPathExists := true }).events) ∧
    (({ demoWorld with cargoOnPath := false
                       cargoPathExists := true : World}).cargoPathExists = false →
      ({ demoWorld with cargoOnPath := false
                        cargoPathExists := true : World}).rustupInstall = some "1" →
      ({ demoWorld with cargoOnPath := false
                        cargoPathExists := true : World}).procOk curlCmd = true →
      ({ demoWorld with cargoOnPath := false
                        cargoPathExists := true : World}).procOk bashCmd = true →
      (cargo_build { demoWorld with cargoOnPath := false
                                    cargoPathExists := true }).events =
        [.subprocess curlCmd none, .subprocess bashCmd none,
         .setPath (cargo_path demoWorld.home ++ ":" ++ demoWorld.path), cargoEv] ∧
      (cargo_build { demoWorld with cargoOnPath := false
                                    cargoPathExists := true }).path
          = cargo_path demoWorld.home ++ ":" ++ demoWorld.path) :=
  cargo_build_toolchain_bootstrap
    { demoWorld with cargoOnPath := false, cargoPathExists := true } rfl rfl

/-- Claim C10: `export_cargo_to_path` succeeds when `HOME` and `PATH`
are present, sets `PATH` to `$HOME/.cargo/bin` followed by `:` and the
previous `PATH` value, and leaves every other environment variable
unchanged. -/
theorem export_cargo_to_path_only_path (env : Environ) (home path : String)
    (hh : env "HOME" = some home) (hp : env "PATH" = some path) :
    ∃ env', export_cargo_to_path env = some env' ∧
      env' "PATH" = some (cargo_path home ++ ":" ++ path) ∧
      ∀ k, k ≠ "PATH" → env' k = env k := by
  unfold export_cargo_to_path
  rw [hh, hp]
  refine ⟨_, rfl, by simp [exportedPath], ?_⟩
  intro k hk
  simp [hk]

/-- A concrete environment holding only `HOME` and `PATH`, used to
witness the `export_cargo_to_path` theorem. -/
def demoEnv : Environ := fun k =>
  if k = "HOME" then some "/home/user"
  else if k = "PATH" then some "/usr/bin" else none

/-- Witness for C10 at the concrete environment `demoEnv`. -/
theorem export_cargo_to_path_only_path_witness :
    ∃ env', export_cargo_to_path demoEnv = some env' ∧
      env' "PATH" = some (cargo_path "/home/user" ++ ":" ++ "/usr/bin") ∧
      ∀ k, k ≠ "PATH" → env' k = demoEnv k :=
  export_cargo_to_path_only_path demoEnv "/home/user" "/usr/bin" rfl rfl

/-- Claim C8: `ilp_extension` raises `NotImplementedError` exactly on
platforms other than darwin, win32 and linux; on each of those three it
returns an Extension named `questdb.ilp` built from
`src/questdb/ilp.pyx` whose `extra_objects` is the single platform
static library under `c-questdb-client/target/release`. -/
theorem ilp_extension_platforms (projRoot : String) :
    (∀ platform,
      ilp_extension projRoot platform
          = .error ("Unsupported platform: " ++ platform) ↔
        (platform ≠ "darwin" ∧ platform ≠ "win32" ∧ platform ≠ "linux")) ∧
    (∃ ext, ilp_extension projRoot "darwin" = .ok ext ∧
      ext.name = "questdb.ilp" ∧ ext.sources = ["src/questdb/ilp.pyx"] ∧
      ext.extra_objects =
        [projRoot ++ "/c-questdb-client/target/release/libquestdb_client.a"]) ∧
    (∃ ext, ilp_extension projRoot "win32" = .ok ext ∧
      ext.name = "questdb.ilp" ∧ ext.sources = ["src/questdb/ilp.pyx"] ∧
      ext.extra_objects =
        [projRoot ++ "/c-questdb-client/target/release/questdb_client.lib"]) ∧
    (∃ ext, ilp_extension projRoot "linux" = .ok ext ∧
      ext.name = "questdb.ilp" ∧ ext.sources = ["src/questdb/ilp.pyx"] ∧
      ext.extra_objects =
        [projRoot ++ "/c-questdb-client/target/release/libquestdb_client.a"]) := by
  refine ⟨?_, ⟨_, rfl, rfl, rfl, by rw [String.append_assoc]; rfl⟩,
    ⟨_, rfl, rfl, rfl, by rw [String.append_assoc]; rfl⟩,
    ⟨_, rfl, rfl, rfl, by rw [String.append_assoc]; rfl⟩⟩
  intro platform
  unfold ilp_extension
  split_ifs with hd hw hl <;> simp_all

/-- Witness for C8, evaluating the unsupported-platform branch at a
concrete platform name via the theorem. -/
theorem ilp_extension_platforms_witness :
    ilp_extension "/proj" "freebsd"
        = .error ("Unsupported platform: " ++ "freebsd") :=
  ((ilp_extension_platforms "/proj").1 "freebsd").mpr
    (by refine ⟨?_, ?_, ?_⟩ <;> decide)

end QuestDBSetup

namespace QuestDBClient

lemma isDigitCh_digitCh {d : Nat} (h : d < 10) : isDigitCh (digitCh d) = true := by
  interval_cases d <;> decide

lemma charDigit_digitCh {d : Nat} (h : d < 10) : charDigit (digitCh d) = d := by
  interval_cases d <;> decide

lemma ne_of_digit {c c' : Char} (h : isDigitCh c = true)
    (h' : isDigitCh c' = false) : c ≠ c' := by
  intro he
  rw [he, h'] at h
  exact Bool.noConfusion h

lemma natToCharsAux_acc (fuel : Nat) :
    ∀ n acc, natToCharsAux fuel n acc = natToCharsAux fuel n [] ++ acc := by
  induction fuel with
  | zero => intro n acc; rfl
  | succ f ih =>
    intro n acc
    by_cases h : n < 10
    · simp [natToCharsAux, h]
    · simp only [natToCharsAux]
      rw [if_neg h, if_neg h]
      rw [ih (n / 10) (digitCh (n % 10) :: acc), ih (n / 10) [digitCh (n % 10)]]
      simp

lemma natToCharsAux_fuel (n : Nat) : ∀ f1 f2, n < f1 → n < f2 →
    natToCharsAux f1 n [] = natToCharsAux f2 n [] := by
  induction n using Nat.strong_induction_on with
  | _ n ih =>
    intro f1 f2 h1 h2
    cases f1 with
    | zero => omega
    | succ f1 =>
      cases f2 with
      | zero => omega
      | succ f2 =>
        by_cases h : n < 10
        · simp [natToCharsAux, h]
        · simp only [natToCharsAux]
          rw [if_neg h, if_neg h]
          rw [natToCharsAux_acc f1, natToCharsAux_acc f2]
          have hd : n / 10 < n := Nat.div_lt_self (by omega) (by omega)
          rw [ih (n / 10) hd f1 f2 (by omega) (by omega)]

lemma natToChars_lt {n : Nat} (h : n < 10) : natToChars n = [digitCh n] := by
  simp [natToChars, natToCharsAux, h]

lemma natToChars_ge {n : Nat} (h : 10 ≤ n) :
    natToChars n = natToChars (n / 10) ++ [digitCh (n % 10)] := by
  have h0 : natToChars n = natToCharsAux n (n / 10) [digitCh (n % 10)] := by
    simp only [natToChars, natToCharsAux]
    rw [if_neg (by omega)]
  rw [h0, natToCharsAux_acc]
  have hd : n / 10 < n := Nat.div_lt_self (by omega) (by omega)
  rw [natToCharsAux_fuel (n / 10) n (n / 10 + 1) hd (by omega)]
  rfl

lemma natToChars_ne_nil (n : Nat) : natToChars n ≠ [] := by
  by_cases h : n < 10
  · rw [natToChars_lt h]
    simp
  · rw [natToChars_ge (by omega)]
    simp

lemma natToChars_all_digits (n : Nat) :
    ∀ c ∈ natToChars n, isDigitCh c = true := by
  induction n using Nat.strong_induction_on with
  | _ n ih =>
    by_cases h : n < 10
    · rw [natToChars_lt h]
      intro c hc
      simp only [List.mem_singleton] at hc
      rw [hc]
      exact isDigitCh_digitCh h
    · rw [natToChars_ge (by omega)]
      intro c hc
      rcases List.mem_append.mp hc with hc | hc
      · exact ih (n / 10) (Nat.div_lt_self (by omega) (by omega)) c hc
      · simp only [List.mem_singleton] at hc
        rw [hc]
        exact isDigitCh_digitCh (Nat.mod_lt n (by omega))

lemma parseNatFold_natToChars (n : Nat) : parseNatFold (natToChars n) = n := by
  induction n using Nat.strong_induction_on with
  | _ n ih =>
    by_cases h : n < 10
    · rw [natToChars_lt h]
      simp [parseNatFold, charDigit_digitCh h]
    · rw [natToChars_ge (by omega)]
      unfold parseNatFold
      rw [List.foldl_append]
      have hrec := ih (n / 10) (Nat.div_lt_self (by omega) (by omega))
      unfold parseNatFold at hrec
      rw [hrec]
      simp only [List.foldl_cons, List.foldl_nil,
        charDigit_digitCh (Nat.mod_lt n (by omega))]
      omega

lemma parseNatChars_natToChars (n : Nat) :
    parseNatChars (natToChars n) = some n := by
  unfold parseNatChars
  rw [if_pos, parseNatFold_natToChars]
  have h1 : (natToChars n).isEmpty = false := by
    cases hn : natToChars n with
    | nil => exact absurd hn (natToChars_ne_nil n)
    | cons c l => rfl
  have h2 : (natToChars n).all isDigitCh = true :=
    List.all_eq_true.mpr (natToChars_all_digits n)
  rw [h1, h2]
  rfl

lemma natToChars_head (n : Nat) :
    ∃ c l, natToChars n = c :: l ∧ isDigitCh c = true := by
  cases hn : natToChars n with
  | nil => exact absurd hn (natToChars_ne_nil n)
  | cons c l =>
    refine ⟨c, l, rfl, natToChars_all_digits n c ?_⟩
    rw [hn]
    simp

lemma parseIntChars_intToChars (i : Int) :
    parseIntChars (intToChars i) = some i := by
  unfold intToChars
  split_ifs with h
  · have hneg : (-(i.natAbs : Int)) = i := by omega
    simp [parseIntChars, parseNatChars_natToChars, hneg]
    rw [abs_of_neg h, neg_neg]
  · obtain ⟨c, l, hcl, hc⟩ := natToChars_head i.toNat
    have hnn : ((i.toNat : Int)) = i := by omega
    have hcm : c ≠ '-' := ne_of_digit hc (by decide)
    rw [hcl]
    simp [parseIntChars, hcm, ← hcl, parseNatChars_natToChars, hnn]

lemma intToChars_chars (i : Int) :
    ∀ c ∈ intToChars i, c = '-' ∨ isDigitCh c = true := by
  unfold intToChars
  split_ifs with h
  · intro c hc
    rcases List.mem_cons.mp hc with rfl | hc
    · exact Or.inl rfl
    · exact Or.inr (natToChars_all_digits _ c hc)
  · intro c hc
    exact Or.inr (natToChars_all_digits _ c hc)

lemma intToChars_ne_nil (i : Int) : intToChars i ≠ [] := by
  unfold intToChars
  split_ifs with h
  · simp
  · exact natToChars_ne_nil _

lemma intToChars_head (i : Int) :
    ∃ c l, intToChars i = c :: l ∧ (c = '-' ∨ isDigitCh c = true) := by
  cases hn : intToChars i with
  | nil => exact absurd hn (intToChars_ne_nil i)
  | cons c l =>
    refine ⟨c, l, rfl, intToChars_chars i c ?_⟩
    rw [hn]
    simp

end QuestDBClient

namespace QuestDBClient

lemma takeWhile_all_append {α} (p : α → Bool) (a b : List α) (stop : α)
    (ha : ∀ c ∈ a, p c = true) (hs : p stop = false) :
    (a ++ stop :: b).takeWhile p = a := by
  induction a with
  | nil => simp [List.takeWhile_cons, hs]
  | cons x xs ih =>
    have hx : p x = true := ha x (List.mem_cons_self x xs)
    simp only [List.cons_append, List.takeWhile_cons, hx, if_true]
    rw [ih (fun c hc => ha c (List.mem_cons_of_mem x hc))]

lemma dropWhile_all_append {α} (p : α → Bool) (a b : List α) (stop : α)
    (ha : ∀ c ∈ a, p c = true) (hs : p stop = false) :
    (a ++ stop :: b).dropWhile p = stop :: b := by
  induction a with
  | nil => simp [List.dropWhile_cons, hs]
  | cons x xs ih =>
    have hx : p x = true := ha x (List.mem_cons_self x xs)
    simp only [List.cons_append, List.dropWhile_cons, hx, if_true]
    exact ih (fun c hc => ha c (List.mem_cons_of_mem x hc))

lemma splitChar_no_sep (sep : Char) (l : List Char) (h : ∀ c ∈ l, c ≠ sep) :
    splitChar sep l = [l] := by
  induction l with
  | nil => rfl
  | cons c cs ih =>
    simp only [splitChar]
    rw [if_neg (h c (List.mem_cons_self c cs))]
    rw [ih (fun x hx => h x (List.mem_cons_of_mem c hx))]

lemma splitChar_append (sep : Char) (a b : List Char) (h : ∀ c ∈ a, c ≠ sep) :
    splitChar sep (a ++ sep :: b) = a :: splitChar sep b := by
  induction a with
  | nil => simp [splitChar]
  | cons x xs ih =>
    simp only [List.cons_append, splitChar, List.append_eq]
    rw [if_neg (h x (List.mem_cons_self x xs))]
    rw [ih (fun c hc => h c (List.mem_cons_of_mem x hc))]

lemma splitChar_joinSep (sep : Char) : ∀ toks : List (List Char),
    toks ≠ [] → (∀ tok ∈ toks, ∀ c ∈ tok, c ≠ sep) →
    splitChar sep (joinSep sep toks) = toks := by
  intro toks
  induction toks with
  | nil => intro h; exact absurd rfl h
  | cons t ts ih =>
    intro _ hok
    cases ts with
    | nil =>
      simp only [joinSep]
      exact splitChar_no_sep sep t (hok t (List.mem_cons_self t []))
    | cons t2 ts2 =>
      simp only [joinSep]
      rw [splitChar_append sep t _ (hok t (List.mem_cons_self t _))]
      rw [ih (by simp) (fun tok htok c hc =>
        hok tok (List.mem_cons_of_mem t htok) c hc)]

lemma mem_joinSep_head (sep : Char) (t : List Char) (ts : List (List Char))
    (x : Char) (hx : x ∈ t) : x ∈ joinSep sep (t :: ts) := by
  cases ts with
  | nil => exact hx
  | cons t2 ts2 =>
    simp only [joinSep]
    exact List.mem_append.mpr (Or.inl hx)

lemma parseEq_append (n v : List Char) (h : ∀ c ∈ n, c ≠ '=') :
    parseEq (n ++ '=' :: v) = some (n, v) := by
  unfold parseEq
  have hd : (n ++ '=' :: v).dropWhile (fun c => c != '=') = '=' :: v :=
    dropWhile_all_append _ n v '='
      (fun c hc => by simp [h c hc]) (by simp)
  have ht : (n ++ '=' :: v).takeWhile (fun c => c != '=') = n :=
    takeWhile_all_append _ n v '='
      (fun c hc => by simp [h c hc]) (by simp)
  rw [hd]
  simp [ht]

lemma optMapM_map_some {α β} (f : α → Option β) (g : β → α) :
    ∀ l : List β, (∀ x ∈ l, f (g x) = some x) →
      optMapM f (l.map g) = some l := by
  intro l
  induction l with
  | nil => intro _; rfl
  | cons x xs ih =>
    intro h
    simp only [List.map_cons, optMapM]
    rw [h x (List.mem_cons_self x xs), ih (fun y hy => h y (List.mem_cons_of_mem x hy))]

end QuestDBClient

namespace QuestDBClient

lemma parseVal_cons (c0 : Char) (rest0 : List Char) :
    parseVal (c0 :: rest0) =
      if c0 = '"' then parseQuoted rest0 else parseSuffixed (c0 :: rest0) := rfl

lemma parseQuoted_of_reverse {rest0 : List Char} {cl : Char} {sR : List Char}
    (h : rest0.reverse = cl :: sR) :
    parseQuoted rest0 = if cl = '"' then some (.vStr sR.reverse) else none := by
  unfold parseQuoted
  rw [h]

lemma parseSuffixed_of_reverse {val : List Char} {cl : Char} {restR : List Char}
    (h : val.reverse = cl :: restR) :
    parseSuffixed val =
      (if cl = 'i' then (parseIntChars restR.reverse).map .vInt
       else if cl = 't' then
         if restR.isEmpty then some (.vBool true)
         else (parseIntChars restR.reverse).map .vTs
       else if cl = 'f' then
         if restR.isEmpty then some (.vBool false) else none
       else parseFloatTok val) := by
  unfold parseSuffixed
  rw [h]

lemma parseFloatTok_of_drop {val : List Char} {cd : Char} {frac : List Char}
    (h : val.dropWhile (fun c => c != '.') = cd :: frac) :
    parseFloatTok val =
      (if cd = '.' then
        match parseIntChars (val.takeWhile (fun c => c != '.')),
            parseFrac frac with
        | some ip, some fr => some (.vFloat ip fr)
        | _, _ => none
      else none) := by
  unfold parseFloatTok
  rw [h]

lemma charFin_digitCh (d : Fin 10) : charFin (digitCh d.val) = some d := by
  revert d
  decide

lemma parseFrac_map (frac : List (Fin 10)) (h : frac ≠ []) :
    parseFrac (frac.map (fun d => digitCh d.val)) = some frac := by
  unfold parseFrac
  have he : (frac.map (fun d => digitCh d.val)).isEmpty = false := by
    cases frac with
    | nil => exact absurd rfl h
    | cons a b => rfl
  rw [he]
  simp only [Bool.false_eq_true, if_false]
  exact optMapM_map_some charFin _ frac (fun x _ => charFin_digitCh x)

lemma intToChars_no_dot (i : Int) :
    ∀ c ∈ intToChars i, (c != '.') = true := by
  intro c hc
  rcases intToChars_chars i c hc with rfl | hd
  · decide
  · simp only [bne_iff_ne, ne_eq]
    exact ne_of_digit hd (by decide)

lemma parseFloatTok_round (ip : Int) (frac : List (Fin 10)) (h : frac ≠ []) :
    parseFloatTok (intToChars ip ++ '.' :: frac.map (fun d => digitCh d.val))
      = some (.vFloat ip frac) := by
  have hd : (intToChars ip ++ '.' :: frac.map (fun d => digitCh d.val)).dropWhile
      (fun c => c != '.') = '.' :: frac.map (fun d => digitCh d.val) :=
    dropWhile_all_append _ _ _ '.' (intToChars_no_dot ip) (by decide)
  have ht : (intToChars ip ++ '.' :: frac.map (fun d => digitCh d.val)).takeWhile
      (fun c => c != '.') = intToChars ip :=
    takeWhile_all_append _ _ _ '.' (intToChars_no_dot ip) (by decide)
  rw [parseFloatTok_of_drop hd, if_pos rfl, ht, parseIntChars_intToChars,
    parseFrac_map frac h]

lemma parseVal_renderVal (cv : ColValue) (h : colValOk cv = true) :
    parseVal (renderVal cv) = some cv := by
  cases cv with
  | vStr s =>
    simp only [renderVal]
    rw [parseVal_cons, if_pos rfl]
    rw [parseQuoted_of_reverse
      (show (s ++ ['"']).reverse = '"' :: s.reverse by simp)]
    rw [if_pos rfl]
    simp
  | vInt i =>
    obtain ⟨c, l, hcl, hc⟩ := intToChars_head i
    have hq : c ≠ '"' := by
      rcases hc with rfl | hd
      · decide
      · exact ne_of_digit hd (by decide)
    simp only [renderVal]
    rw [hcl, List.cons_append, parseVal_cons, if_neg hq]
    show parseSuffixed ((c :: l) ++ ['i']) = some (ColValue.vInt i)
    rw [← hcl]
    rw [parseSuffixed_of_reverse
      (show (intToChars i ++ ['i']).reverse = 'i' :: (intToChars i).reverse by
        simp)]
    rw [if_pos rfl]
    simp [parseIntChars_intToChars]
  | vTs t =>
    obtain ⟨c, l, hcl, hc⟩ := intToChars_head t
    have hq : c ≠ '"' := by
      rcases hc with rfl | hd
      · decide
      · exact ne_of_digit hd (by decide)
    have hre : ((intToChars t).reverse).isEmpty = false := by
      cases hn : (intToChars t).reverse with
      | nil =>
        exact absurd (by simpa using congrArg List.reverse hn)
          (intToChars_ne_nil t)
      | cons a b => rfl
    simp only [renderVal]
    rw [hcl, List.cons_append, parseVal_cons, if_neg hq]
    show parseSuffixed ((c :: l) ++ ['t']) = some (ColValue.vTs t)
    rw [← hcl]
    rw [parseSuffixed_of_reverse
      (show (intToChars t ++ ['t']).reverse = 't' :: (intToChars t).reverse by
        simp)]
    rw [if_neg (by decide), if_pos rfl, hre]
    simp [parseIntChars_intToChars]
  | vBool b => cases b <;> decide
  | vFloat ip frac =>
    have hfr : frac ≠ [] := by
      simp only [colValOk, Bool.not_eq_true'] at h
      intro hc
      rw [hc] at h
      exact Bool.noConfusion h
    obtain ⟨c, l, hcl, hc⟩ := intToChars_head ip
    have hq : c ≠ '"' := by
      rcases hc with rfl | hd
      · decide
      · exact ne_of_digit hd (by decide)
    obtain ⟨cl, restR, hrev⟩ :
        ∃ cl restR, (frac.map (fun d => digitCh d.val)).reverse = cl :: restR := by
      cases hn : (frac.map (fun d => digitCh d.val)).reverse with
      | nil =>
        have : frac.map (fun d => digitCh d.val) = [] := by
          simpa using congrArg List.reverse hn
        cases frac with
        | nil => exact absurd rfl hfr
        | cons a b => exact absurd this (by simp)
      | cons a b => exact ⟨a, b, rfl⟩
    have hcld : isDigitCh cl = true := by
      have hm : cl ∈ frac.map (fun d => digitCh d.val) := by
        rw [← List.mem_reverse, hrev]
        exact List.mem_cons_self cl restR
      obtain ⟨d, _, hdc⟩ := List.mem_map.mp hm
      rw [← hdc]
      exact isDigitCh_digitCh d.isLt
    simp only [renderVal]
    rw [hcl, List.cons_append, parseVal_cons, if_neg hq]
    show parseSuffixed ((c :: l) ++ '.' :: frac.map (fun d => digitCh d.val))
      = some (ColValue.vFloat ip frac)
    rw [← hcl]
    have hrev2 : (intToChars ip ++ '.' :: frac.map (fun d => digitCh d.val)).reverse
        = cl :: (restR ++ '.' :: (intToChars ip).reverse) := by
      rw [List.reverse_append, List.reverse_cons, hrev]
      simp
    rw [parseSuffixed_of_reverse hrev2]
    rw [if_neg (ne_of_digit hcld (by decide)),
      if_neg (ne_of_digit hcld (by decide)),
      if_neg (ne_of_digit hcld (by decide))]
    exact parseFloatTok_round ip frac hfr

end QuestDBClient

namespace QuestDBClient

lemma plainOk_spec {l : List Char} (h : plainOk l = true) :
    ∀ c ∈ l, c ≠ ' ' ∧ c ≠ ',' ∧ c ≠ '=' ∧ c ≠ '"' ∧ c ≠ '\n' := by
  intro c hc
  have hb := List.all_eq_true.mp h c hc
  simp only [Bool.not_eq_true'] at hb
  unfold reservedChar at hb
  simp only [Bool.or_eq_false_iff, decide_eq_false_iff_not] at hb
  exact ⟨hb.1.1.1.1.1, hb.1.1.1.1.2, hb.1.1.1.2, hb.1.1.2, hb.2⟩

lemma nameOk_plain {l : List Char} (h : nameOk l = true) : plainOk l = true := by
  unfold nameOk at h
  cases hp : plainOk l with
  | false => rw [hp, Bool.and_false] at h; exact Bool.noConfusion h
  | true => rfl

lemma intToChars_basic (i : Int) :
    ∀ c ∈ intToChars i, c ≠ ' ' ∧ c ≠ ',' ∧ c ≠ '=' := by
  intro c hc
  rcases intToChars_chars i c hc with rfl | hd
  · refine ⟨by decide, by decide, by decide⟩
  · exact ⟨ne_of_digit hd (by decide), ne_of_digit hd (by decide),
      ne_of_digit hd (by decide)⟩

lemma renderVal_chars {cv : ColValue} (h : colValOk cv = true) :
    ∀ c ∈ renderVal cv, c ≠ ' ' ∧ c ≠ ',' := by
  cases cv with
  | vStr s =>
    intro c hc
    unfold colValOk at h
    simp only [renderVal, List.mem_cons, List.mem_append,
      List.mem_singleton, List.not_mem_nil, or_false] at hc
    rcases hc with rfl | hc | rfl
    · exact ⟨by decide, by decide⟩
    · exact ⟨(plainOk_spec h c hc).1, (plainOk_spec h c hc).2.1⟩
    · exact ⟨by decide, by decide⟩
  | vInt i =>
    intro c hc
    simp only [renderVal, List.mem_append, List.mem_cons,
      List.mem_singleton, List.not_mem_nil, or_false] at hc
    rcases hc with hc | rfl
    · exact ⟨(intToChars_basic i c hc).1, (intToChars_basic i c hc).2.1⟩
    · exact ⟨by decide, by decide⟩
  | vFloat ip frac =>
    intro c hc
    simp only [renderVal, List.mem_append, List.mem_cons,
      List.not_mem_nil, or_false] at hc
    rcases hc with hc | rfl | hc
    · exact ⟨(intToChars_basic ip c hc).1, (intToChars_basic ip c hc).2.1⟩
    · exact ⟨by decide, by decide⟩
    · obtain ⟨d, _, hdc⟩ := List.mem_map.mp hc
      have hdd : isDigitCh c = true := by
        rw [← hdc]
        exact isDigitCh_digitCh d.isLt
      exact ⟨ne_of_digit hdd (by decide), ne_of_digit hdd (by decide)⟩
  | vBool b =>
    cases b <;>
      · intro c hc
        simp only [renderVal, List.mem_cons, List.mem_singleton,
          List.not_mem_nil, or_false] at hc
        rw [hc]
        exact ⟨by decide, by decide⟩
  | vTs t =>
    intro c hc
    simp only [renderVal, List.mem_append, List.mem_cons,
      List.mem_singleton, List.not_mem_nil, or_false] at hc
    rcases hc with hc | rfl
    · exact ⟨(intToChars_basic t c hc).1, (intToChars_basic t c hc).2.1⟩
    · exact ⟨by decide, by decide⟩

lemma mem_joinSep (sep : Char) : ∀ (toks : List (List Char)) (c : Char),
    c ∈ joinSep sep toks → c = sep ∨ ∃ tok ∈ toks, c ∈ tok := by
  intro toks
  induction toks with
  | nil => intro c hc; simp [joinSep] at hc
  | cons t ts ih =>
    intro c hc
    cases ts with
    | nil =>
      exact Or.inr ⟨t, List.mem_cons_self t [], hc⟩
    | cons t2 ts2 =>
      simp only [joinSep, List.mem_append, List.mem_cons] at hc
      rcases hc with hc | rfl | hc
      · exact Or.inr ⟨t, List.mem_cons_self t _, hc⟩
      · exact Or.inl rfl
      · rcases ih c (by simpa [joinSep] using hc) with rfl | ⟨tok, htok, hctok⟩
        · exact Or.inl rfl
        · exact Or.inr ⟨tok, List.mem_cons_of_mem t htok, hctok⟩

end QuestDBClient

namespace QuestDBClient

lemma splitChar_table_syms : ∀ (syms : List (List Char × List Char))
    (lead : List Char), (∀ c ∈ lead, c ≠ ',') →
    (∀ s ∈ syms, (∀ c ∈ s.1, c ≠ ',') ∧ (∀ c ∈ s.2, c ≠ ',')) →
    splitChar ',' (lead ++ concatAll (syms.map symChunk))
      = lead :: syms.map (fun s => s.1 ++ '=' :: s.2) := by
  intro syms
  induction syms with
  | nil =>
    intro lead hl _
    simp only [List.map_nil, concatAll, List.append_nil]
    exact splitChar_no_sep ',' lead hl
  | cons s ss ih =>
    intro lead hl hs
    have hshape : lead ++ concatAll ((s :: ss).map symChunk)
        = lead ++ ',' :: ((s.1 ++ '=' :: s.2) ++ concatAll (ss.map symChunk)) := by
      simp [concatAll, symChunk]
    rw [hshape, splitChar_append ',' lead _ hl]
    have hlead2 : ∀ c ∈ s.1 ++ '=' :: s.2, c ≠ ',' := by
      intro c hc
      simp only [List.mem_append, List.mem_cons] at hc
      rcases hc with hc | rfl | hc
      · exact (hs s (List.mem_cons_self s ss)).1 c hc
      · decide
      · exact (hs s (List.mem_cons_self s ss)).2 c hc
    rw [ih (s.1 ++ '=' :: s.2) hlead2
      (fun t ht => hs t (List.mem_cons_of_mem s ht))]
    simp

lemma parseTableSyms_of_split {seg table : List Char}
    {symToks : List (List Char)}
    (h : splitChar ',' seg = table :: symToks) :
    parseTableSyms seg
      = (optMapM parseEq symToks).map (fun syms => (table, syms)) := by
  unfold parseTableSyms
  rw [h]

lemma parseTableSyms_round (table : List Char)
    (syms : List (List Char × List Char))
    (htable : ∀ c ∈ table, c ≠ ',')
    (hs : ∀ s ∈ syms, plainOk s.1 = true ∧ plainOk s.2 = true) :
    parseTableSyms (table ++ concatAll (syms.map symChunk))
      = some (table, syms) := by
  rw [parseTableSyms_of_split (splitChar_table_syms syms table htable
    (fun s hs' => ⟨fun c hc => (plainOk_spec (hs s hs').1 c hc).2.1,
      fun c hc => (plainOk_spec (hs s hs').2 c hc).2.1⟩))]
  rw [optMapM_map_some parseEq _ syms (fun s hs' =>
    parseEq_append s.1 s.2 (fun c hc => (plainOk_spec (hs s hs').1 c hc).2.2.1))]
  rfl

lemma parseColTok_round (n : List Char) (cv : ColValue)
    (hn : plainOk n = true) (hv : colValOk cv = true) :
    parseColTok (colToken (n, cv)) = some (n, cv) := by
  unfold parseColTok colToken
  rw [parseEq_append n (renderVal cv)
    (fun c hc => (plainOk_spec hn c hc).2.2.1)]
  show (parseVal (renderVal cv)).map (fun v => (n, v)) = some (n, cv)
  rw [parseVal_renderVal cv hv]
  rfl

lemma colToken_no_comma {n : List Char} {cv : ColValue}
    (hn : plainOk n = true) (hv : colValOk cv = true) :
    ∀ c ∈ colToken (n, cv), c ≠ ',' := by
  intro c hc
  unfold colToken at hc
  simp only [List.mem_append, List.mem_cons] at hc
  rcases hc with hc | rfl | hc
  · exact (plainOk_spec hn c hc).2.1
  · decide
  · exact (renderVal_chars hv c hc).2

lemma colToken_no_space {n : List Char} {cv : ColValue}
    (hn : plainOk n = true) (hv : colValOk cv = true) :
    ∀ c ∈ colToken (n, cv), c ≠ ' ' := by
  intro c hc
  unfold colToken at hc
  simp only [List.mem_append, List.mem_cons] at hc
  rcases hc with hc | rfl | hc
  · exact (plainOk_spec hn c hc).1
  · decide
  · exact (renderVal_chars hv c hc).1

lemma parseCols_round (cols : List (List Char × ColValue)) (hne : cols ≠ [])
    (hok : ∀ c ∈ cols, plainOk c.1 = true ∧ colValOk c.2 = true) :
    parseCols (joinSep ',' (cols.map colToken)) = some cols := by
  unfold parseCols
  rw [splitChar_joinSep ',' (cols.map colToken) (by simp [hne])
    (fun tok htok c hc => by
      obtain ⟨cc, hcc, htokeq⟩ := List.mem_map.mp htok
      rw [← htokeq] at hc
      exact colToken_no_comma (hok cc hcc).1 (hok cc hcc).2 c hc)]
  exact optMapM_map_some parseColTok colToken cols
    (fun cc hcc => parseColTok_round cc.1 cc.2 (hok cc hcc).1 (hok cc hcc).2)

lemma parseRow_newline (body : List Char) :
    parseRow (body ++ ['\n']) = parseRowBody body := by
  unfold parseRow
  rw [show (body ++ ['\n']).reverse = '\n' :: body.reverse by simp]
  show (if '\n' = '\n' then parseRowBody body.reverse.reverse else none)
    = parseRowBody body
  rw [if_pos rfl, List.reverse_reverse]

lemma parseRowBody_of_split1 {body seg1 : List Char}
    (h : splitChar ' ' body = [seg1]) :
    parseRowBody body = (parseTableSyms seg1).map (fun p => ⟨p.1, p.2, [], none⟩) := by
  unfold parseRowBody
  rw [h]

lemma parseRowBody_of_split2 {body seg1 seg2 : List Char}
    (h : splitChar ' ' body = [seg1, seg2]) :
    parseRowBody body =
      (match parseTableSyms seg1 with
       | none => none
       | some p =>
         if seg2.any (fun c => c == '=') then
           (parseCols seg2).map (fun cols => ⟨p.1, p.2, cols, none⟩)
         else
           (parseIntChars seg2).map (fun ts => ⟨p.1, p.2, [], some ts⟩)) := by
  unfold parseRowBody
  rw [h]

lemma parseRowBody_of_split3 {body seg1 seg2 seg3 : List Char}
    (h : splitChar ' ' body = [seg1, seg2, seg3]) :
    parseRowBody body =
      (match parseTableSyms seg1 with
       | none => none
       | some p =>
         match parseCols seg2, parseIntChars seg3 with
         | some cols, some ts => some ⟨p.1, p.2, cols, some ts⟩
         | _, _ => none) := by
  unfold parseRowBody
  rw [h]

end QuestDBClient

namespace QuestDBClient

lemma orderOk_start_syms {fields : List Field}
    (h : orderOkFrom .sStart fields = true) :
    orderOkFrom .sSyms fields = true := by
  cases fields with
  | nil => rfl
  | cons f rest =>
    cases f with
    | symbol n v => exact h
    | column n v => exact h
    | tsField t => exact Bool.noConfusion h

lemma decomp_cols : ∀ fields : List Field, orderOkFrom .sCols fields = true →
    symsOf fields = [] ∧
    fields = (colsOf fields).map (fun c => Field.column c.1 c.2) ++
      (match tsOf fields with
       | some t => [Field.tsField t]
       | none => []) := by
  intro fields
  induction fields with
  | nil => intro _; exact ⟨rfl, rfl⟩
  | cons f rest ih =>
    intro h
    cases f with
    | symbol n v => exact Bool.noConfusion h
    | column n v =>
      have hr := ih h
      refine ⟨?_, ?_⟩
      · simp only [symsOf, List.filterMap_cons]
        exact hr.1
      · simp only [colsOf, tsOf, List.filterMap_cons, List.map_cons,
          List.cons_append]
        have h2 := hr.2
        simp only [colsOf, tsOf] at h2
        exact congrArg (fun l => Field.column n v :: l) h2
    | tsField t =>
      have hrest : rest = [] := by
        cases rest with
        | nil => rfl
        | cons a b => exact Bool.noConfusion h
      subst hrest
      exact ⟨rfl, rfl⟩

lemma decomp_syms : ∀ fields : List Field, orderOkFrom .sSyms fields = true →
    fields = (symsOf fields).map (fun s => Field.symbol s.1 s.2) ++
      (colsOf fields).map (fun c => Field.column c.1 c.2) ++
      (match tsOf fields with
       | some t => [Field.tsField t]
       | none => []) := by
  intro fields
  induction fields with
  | nil => intro _; rfl
  | cons f rest ih =>
    intro h
    cases f with
    | symbol n v =>
      have hr := ih h
      simp only [symsOf, colsOf, tsOf, List.filterMap_cons, List.map_cons,
        List.cons_append]
      have h2 := hr
      simp only [symsOf, colsOf, tsOf] at h2
      exact congrArg (fun l => Field.symbol n v :: l) h2
    | column n v =>
      have hr := decomp_cols rest h
      simp only [symsOf, colsOf, tsOf, List.filterMap_cons, List.map_cons,
        List.cons_append]
      have h1 := hr.1
      simp only [symsOf] at h1
      rw [h1]
      simp only [List.map_nil, List.nil_append]
      have h2 := hr.2
      simp only [colsOf, tsOf] at h2
      exact congrArg (fun l => Field.column n v :: l) h2
    | tsField t =>
      have hrest : rest = [] := by
        cases rest with
        | nil => rfl
        | cons a b => exact Bool.noConfusion h
      subst hrest
      rfl

lemma fieldsOfRow_decomp {table : List Char} {fields : List Field}
    (h : orderOkFrom .sStart fields = true) :
    fieldsOfRow ⟨table, symsOf fields, colsOf fields, tsOf fields⟩ = fields := by
  unfold fieldsOfRow
  exact (decomp_syms fields (orderOk_start_syms h)).symm

lemma all_fieldOk_syms {fields : List Field} (h : fields.all fieldOk = true) :
    ∀ s ∈ symsOf fields, nameOk s.1 = true ∧ plainOk s.2 = true := by
  intro s hs
  obtain ⟨f, hf, hgf⟩ := List.mem_filterMap.mp hs
  have hok := List.all_eq_true.mp h f hf
  cases f with
  | symbol n v =>
    simp only [Option.some.injEq] at hgf
    rw [← hgf]
    simp only [fieldOk, Bool.and_eq_true] at hok
    exact hok
  | column n v => exact Option.noConfusion hgf
  | tsField t => exact Option.noConfusion hgf

lemma all_fieldOk_cols {fields : List Field} (h : fields.all fieldOk = true) :
    ∀ c ∈ colsOf fields, nameOk c.1 = true ∧ colValOk c.2 = true := by
  intro cc hc
  obtain ⟨f, hf, hgf⟩ := List.mem_filterMap.mp hc
  have hok := List.all_eq_true.mp h f hf
  cases f with
  | symbol n v => exact Option.noConfusion hgf
  | column n v =>
    simp only [Option.some.injEq] at hgf
    rw [← hgf]
    simp only [fieldOk, Bool.and_eq_true] at hok
    exact hok
  | tsField t => exact Option.noConfusion hgf

lemma mem_concatAll : ∀ (ls : List (List Char)) (c : Char),
    c ∈ concatAll ls → ∃ l ∈ ls, c ∈ l := by
  intro ls
  induction ls with
  | nil => intro c hc; simp [concatAll] at hc
  | cons t ts ih =>
    intro c hc
    simp only [concatAll, List.mem_append] at hc
    rcases hc with hc | hc
    · exact ⟨t, List.mem_cons_self t ts, hc⟩
    · obtain ⟨l, hl, hcl⟩ := ih c hc
      exact ⟨l, List.mem_cons_of_mem t hl, hcl⟩

lemma seg1_no_space {table : List Char} {syms : List (List Char × List Char)}
    (htable : plainOk table = true)
    (hs : ∀ s ∈ syms, plainOk s.1 = true ∧ plainOk s.2 = true) :
    ∀ c ∈ table ++ concatAll (syms.map symChunk), c ≠ ' ' := by
  intro c hc
  rcases List.mem_append.mp hc with hc | hc
  · exact (plainOk_spec htable c hc).1
  · obtain ⟨l, hl, hcl⟩ := mem_concatAll _ c hc
    obtain ⟨s, hsmem, rfl⟩ := List.mem_map.mp hl
    simp only [symChunk, List.mem_cons, List.mem_append] at hcl
    rcases hcl with rfl | hcl | rfl | hcl
    · decide
    · exact (plainOk_spec (hs s hsmem).1 c hcl).1
    · decide
    · exact (plainOk_spec (hs s hsmem).2 c hcl).1

lemma colsSeg_no_space {cols : List (List Char × ColValue)}
    (hok : ∀ cc ∈ cols, plainOk cc.1 = true ∧ colValOk cc.2 = true) :
    ∀ c ∈ joinSep ',' (cols.map colToken), c ≠ ' ' := by
  intro c hc
  rcases mem_joinSep ',' _ c hc with rfl | ⟨tok, htok, hctok⟩
  · decide
  · obtain ⟨cc, hcc, rfl⟩ := List.mem_map.mp htok
    exact colToken_no_space (hok cc hcc).1 (hok cc hcc).2 c hctok

end QuestDBClient

namespace QuestDBClient

lemma validRow_spec {table : List Char} {fields : List Field}
    (h : validRow table fields = true) :
    nameOk table = true ∧ fields ≠ [] ∧ fields.all fieldOk = true ∧
      countTs fields ≤ 1 ∧ orderOkFrom .sStart fields = true := by
  unfold validRow at h
  simp only [Bool.and_eq_true, decide_eq_true_eq, Bool.not_eq_true'] at h
  refine ⟨h.1.1.1.1, ?_, h.1.1.2, h.1.2, h.2⟩
  intro hf
  have hemp := h.1.1.1.2
  rw [hf] at hemp
  exact Bool.noConfusion hemp

lemma parseRow_rowLine {table : List Char} {fields : List Field}
    (h : validRow table fields = true) :
    parseRow (rowLine table fields)
      = some ⟨table, symsOf fields, colsOf fields, tsOf fields⟩ := by
  obtain ⟨hname, hne, hall, hcount, horder⟩ := validRow_spec h
  have hplain := nameOk_plain hname
  have hsy := all_fieldOk_syms hall
  have hco := all_fieldOk_cols hall
  have hsy' : ∀ s ∈ symsOf fields, plainOk s.1 = true ∧ plainOk s.2 = true :=
    fun s hs => ⟨nameOk_plain (hsy s hs).1, (hsy s hs).2⟩
  have hco' : ∀ cc ∈ colsOf fields, plainOk cc.1 = true ∧ colValOk cc.2 = true :=
    fun cc hc => ⟨nameOk_plain (hco cc hc).1, (hco cc hc).2⟩
  have hseg1ns : ∀ c ∈ table ++ concatAll ((symsOf fields).map symChunk),
      c ≠ ' ' := seg1_no_space hplain hsy'
  have htsround := parseTableSyms_round table (symsOf fields)
    (fun c hc => (plainOk_spec hplain c hc).2.1) hsy'
  rcases hcols : colsOf fields with _ | ⟨c0, crest⟩ <;>
    rcases hts : tsOf fields with _ | t
  · -- no columns, no timestamp
    have hline : rowLine table fields
        = (table ++ concatAll ((symsOf fields).map symChunk)) ++ ['\n'] := by
      unfold rowLine
      rw [hcols, hts]
      simp [List.append_assoc]
    rw [hline, parseRow_newline,
      parseRowBody_of_split1 (splitChar_no_sep ' ' _ hseg1ns), htsround]
    rfl
  · -- no columns, a timestamp
    have hline : rowLine table fields
        = ((table ++ concatAll ((symsOf fields).map symChunk))
            ++ ' ' :: intToChars t) ++ ['\n'] := by
      unfold rowLine
      rw [hcols, hts]
      simp [List.append_assoc]
    have hsplit : splitChar ' '
        ((table ++ concatAll ((symsOf fields).map symChunk))
          ++ ' ' :: intToChars t)
        = [table ++ concatAll ((symsOf fields).map symChunk), intToChars t] := by
      rw [splitChar_append ' ' _ _ hseg1ns,
        splitChar_no_sep ' ' _ (fun c hc => (intToChars_basic t c hc).1)]
    rw [hline, parseRow_newline, parseRowBody_of_split2 hsplit, htsround]
    have hany : (intToChars t).any (fun c => c == '=') = false := by
      cases hb : (intToChars t).any (fun c => c == '=') with
      | false => rfl
      | true =>
        obtain ⟨x, hx, hbe⟩ := List.any_eq_true.mp hb
        rw [beq_iff_eq] at hbe
        exact absurd hbe (intToChars_basic t x hx).2.2
    show (if (intToChars t).any (fun c => c == '=') = true then
        (parseCols (intToChars t)).map
          (fun cols => Row.mk table (symsOf fields) cols none)
      else
        (parseIntChars (intToChars t)).map
          (fun ts => Row.mk table (symsOf fields) [] (some ts)))
      = some (Row.mk table (symsOf fields) [] (some t))
    rw [hany]
    simp only [Bool.false_eq_true, if_false]
    rw [parseIntChars_intToChars]
    rfl
  · -- columns, no timestamp
    rw [hcols] at hco'
    have hline : rowLine table fields
        = ((table ++ concatAll ((symsOf fields).map symChunk))
            ++ ' ' :: joinSep ',' ((c0 :: crest).map colToken)) ++ ['\n'] := by
      unfold rowLine
      rw [hcols, hts]
      simp [List.append_assoc]
    have hsplit : splitChar ' '
        ((table ++ concatAll ((symsOf fields).map symChunk))
          ++ ' ' :: joinSep ',' ((c0 :: crest).map colToken))
        = [table ++ concatAll ((symsOf fields).map symChunk),
           joinSep ',' ((c0 :: crest).map colToken)] := by
      rw [splitChar_append ' ' _ _ hseg1ns,
        splitChar_no_sep ' ' _ (colsSeg_no_space hco')]
    rw [hline, parseRow_newline, parseRowBody_of_split2 hsplit, htsround]
    have hmem : '=' ∈ joinSep ',' ((c0 :: crest).map colToken) := by
      rw [List.map_cons]
      exact mem_joinSep_head ',' _ _ '=' (by simp [colToken])
    have hany : (joinSep ',' ((c0 :: crest).map colToken)).any
        (fun c => c == '=') = true :=
      List.any_eq_true.mpr ⟨'=', hmem, by simp⟩
    show (if (joinSep ',' ((c0 :: crest).map colToken)).any
          (fun c => c == '=') = true then
        (parseCols (joinSep ',' ((c0 :: crest).map colToken))).map
          (fun cols => Row.mk table (symsOf fields) cols none)
      else
        (parseIntChars (joinSep ',' ((c0 :: crest).map colToken))).map
          (fun ts => Row.mk table (symsOf fields) [] (some ts)))
      = some (Row.mk table (symsOf fields) (c0 :: crest) none)
    rw [hany, if_pos rfl, parseCols_round (c0 :: crest) (by simp) hco']
    rfl
  · -- columns and a timestamp
    rw [hcols] at hco'
    have hline : rowLine table fields
        = ((table ++ concatAll ((symsOf fields).map symChunk))
            ++ ' ' :: (joinSep ',' ((c0 :: crest).map colToken)
              ++ ' ' :: intToChars t)) ++ ['\n'] := by
      unfold rowLine
      rw [hcols, hts]
      simp [List.append_assoc]
    have hsplit : splitChar ' '
        ((table ++ concatAll ((symsOf fields).map symChunk))
          ++ ' ' :: (joinSep ',' ((c0 :: crest).map colToken)
            ++ ' ' :: intToChars t))
        = [table ++ concatAll ((symsOf fields).map symChunk),
           joinSep ',' ((c0 :: crest).map colToken), intToChars t] := by
      rw [splitChar_append ' ' _ _ hseg1ns,
        splitChar_append ' ' _ _ (colsSeg_no_space hco'),
        splitChar_no_sep ' ' _ (fun c hc => (intToChars_basic t c hc).1)]
    rw [hline, parseRow_newline, parseRowBody_of_split3 hsplit, htsround]
    show (match parseCols (joinSep ',' ((c0 :: crest).map colToken)),
        parseIntChars (intToChars t) with
      | some cols, some ts => some (Row.mk table (symsOf fields) cols (some ts))
      | _, _ => none)
      = some (Row.mk table (symsOf fields) (c0 :: crest) (some t))
    rw [parseCols_round (c0 :: crest) (by simp) hco', parseIntChars_intToChars]

end QuestDBClient

namespace QuestDBClient

/-- Claim C6: every valid row field sequence (symbols before columns, at
most one designated timestamp and it last, valid names and values) is
accepted by `append_row`, which appends one serialized line; the
reference line-protocol parser maps that line back to exactly the
original table name, symbols, columns and timestamp, and those parsed
components rebuild the original field sequence. -/
theorem append_row_round_trip (b : Buffer) (table : List Char)
    (fields : List Field) (h : validRow table fields = true) :
    ∃ b', append_row b table fields = .ok b' ∧
      b'.bytes = b.bytes ++ rowLine table fields ∧
      b'.rowCount = b.rowCount + 1 ∧
      parseRow (rowLine table fields)
        = some ⟨table, symsOf fields, colsOf fields, tsOf fields⟩ ∧
      fieldsOfRow ⟨table, symsOf fields, colsOf fields, tsOf fields⟩
        = fields := by
  obtain ⟨hname, hne, hall, hcount, horder⟩ := validRow_spec h
  have hnames : (fields.all fun f =>
      match f with
      | .symbol n _ => nameOk n
      | .column n _ => nameOk n
      | .tsField _ => true) = true := by
    rw [List.all_eq_true] at hall ⊢
    intro f hf
    have hfo := hall f hf
    cases f with
    | symbol n v =>
      simp only [fieldOk, Bool.and_eq_true] at hfo
      exact hfo.1
    | column n v =>
      simp only [fieldOk, Bool.and_eq_true] at hfo
      exact hfo.1
    | tsField t => rfl
  have hemp : fields.isEmpty = false := by
    cases fields with
    | nil => exact absurd rfl hne
    | cons a b => rfl
  refine ⟨⟨b.bytes ++ rowLine table fields, b.rowCount + 1⟩, ?_, rfl, rfl,
    parseRow_rowLine h, fieldsOfRow_decomp horder⟩
  unfold append_row
  rw [hname, hnames, hall, horder, hemp]
  simp only [Bool.and_self, Bool.not_true, Bool.false_eq_true, if_false]
  rw [if_neg (by omega)]

/-- Witness for C6 at a concrete three-field row. -/
theorem append_row_round_trip_witness :
    ∃ b', append_row Buffer.empty ['w']
        [Field.symbol ['a'] ['b'], Field.column ['c'] (.vInt 1),
         Field.tsField 2] = .ok b' ∧
      b'.bytes = Buffer.empty.bytes ++ rowLine ['w']
        [Field.symbol ['a'] ['b'], Field.column ['c'] (.vInt 1),
         Field.tsField 2] ∧
      b'.rowCount = Buffer.empty.rowCount + 1 ∧
      parseRow (rowLine ['w']
        [Field.symbol ['a'] ['b'], Field.column ['c'] (.vInt 1),
         Field.tsField 2])
        = some ⟨['w'],
            symsOf [Field.symbol ['a'] ['b'], Field.column ['c'] (.vInt 1),
              Field.tsField 2],
            colsOf [Field.symbol ['a'] ['b'], Field.column ['c'] (.vInt 1),
              Field.tsField 2],
            tsOf [Field.symbol ['a'] ['b'], Field.column ['c'] (.vInt 1),
              Field.tsField 2]⟩ ∧
      fieldsOfRow ⟨['w'],
          symsOf [Field.symbol ['a'] ['b'], Field.column ['c'] (.vInt 1),
            Field.tsField 2],
          colsOf [Field.symbol ['a'] ['b'], Field.column ['c'] (.vInt 1),
            Field.tsField 2],
          tsOf [Field.symbol ['a'] ['b'], Field.column ['c'] (.vInt 1),
            Field.tsField 2]⟩
        = [Field.symbol ['a'] ['b'], Field.column ['c'] (.vInt 1),
           Field.tsField 2] :=
  append_row_round_trip Buffer.empty ['w']
    [Field.symbol ['a'] ['b'], Field.column ['c'] (.vInt 1),
     Field.tsField 2] (by decide)

/-- Claim C5: adding a symbol once the Row Builder is in the `InColumns`
state fails with `InvalidFieldOrderError` and leaves the target Buffer's
bytes and row count (and the builder itself) unmodified. -/
theorem symbol_after_column_rejected (b : Buffer) (rb : RowBuilder)
    (n v : List Char) (h : rb.state = .inColumns) :
    stepOp b rb (.opSymbol n v) = (some .invalidFieldOrderError, b, rb) := by
  unfold stepOp
  rw [h]

/-- Witness for C5 at a concrete builder in the `InColumns` state. -/
theorem symbol_after_column_rejected_witness :
    stepOp ⟨['x'], 3⟩ ⟨['t'], .inColumns⟩ (.opSymbol ['a'] ['b'])
      = (some .invalidFieldOrderError, ⟨['x'], 3⟩, ⟨['t'], .inColumns⟩) :=
  symbol_after_column_rejected ⟨['x'], 3⟩ ⟨['t'], .inColumns⟩ ['a'] ['b'] rfl

/-- Claim C7: every Row Builder step preserves the Buffer invariant
(bytes empty or ending in a newline); the Buffer is unchanged except by
a successful `at` finalization, which appends one nonempty
newline-terminated chunk and advances the row count — a row under
construction is never visible in the Buffer. -/
theorem buffer_row_boundary (b : Buffer) (rb : RowBuilder) (op : Op)
    (e : Option Err) (b' : Buffer) (rb' : RowBuilder)
    (hwf : wfBuf b) (hstep : stepOp b rb op = (e, b', rb')) :
    wfBuf b' ∧
      (b' = b ∨ (e = none ∧ ∃ ts chunk, op = .opAt ts ∧
        b'.bytes = b.bytes ++ chunk ∧ chunk ≠ [] ∧
        chunk.getLast? = some '\n' ∧ b'.rowCount = b.rowCount + 1)) := by
  cases op with
  | opSymbol n v =>
    rcases hstate : rb.state with _ | _ | _ | _ <;>
      simp only [stepOp, hstate] at hstep
    · split_ifs at hstep <;>
      · simp only [Prod.mk.injEq] at hstep
        obtain ⟨-, hb, -⟩ := hstep
        subst hb
        exact ⟨hwf, Or.inl rfl⟩
    · split_ifs at hstep <;>
      · simp only [Prod.mk.injEq] at hstep
        obtain ⟨-, hb, -⟩ := hstep
        subst hb
        exact ⟨hwf, Or.inl rfl⟩
    · simp only [Prod.mk.injEq] at hstep
      obtain ⟨-, hb, -⟩ := hstep
      subst hb
      exact ⟨hwf, Or.inl rfl⟩
    · simp only [Prod.mk.injEq] at hstep
      obtain ⟨-, hb, -⟩ := hstep
      subst hb
      exact ⟨hwf, Or.inl rfl⟩
  | opColumn n v =>
    rcases hstate : rb.state with _ | _ | _ | _ <;>
      simp only [stepOp, hstate] at hstep
    · split_ifs at hstep <;>
      · simp only [Prod.mk.injEq] at hstep
        obtain ⟨-, hb, -⟩ := hstep
        subst hb
        exact ⟨hwf, Or.inl rfl⟩
    · split_ifs at hstep <;>
      · simp only [Prod.mk.injEq] at hstep
        obtain ⟨-, hb, -⟩ := hstep
        subst hb
        exact ⟨hwf, Or.inl rfl⟩
    · split_ifs at hstep <;>
      · simp only [Prod.mk.injEq] at hstep
        obtain ⟨-, hb, -⟩ := hstep
        subst hb
        exact ⟨hwf, Or.inl rfl⟩
    · simp only [Prod.mk.injEq] at hstep
      obtain ⟨-, hb, -⟩ := hstep
      subst hb
      exact ⟨hwf, Or.inl rfl⟩
  | opAt ts =>
    rcases hstate : rb.state with _ | _ | _ | _ <;>
      simp only [stepOp, hstate] at hstep
    · simp only [Prod.mk.injEq] at hstep
      obtain ⟨-, hb, -⟩ := hstep
      subst hb
      exact ⟨hwf, Or.inl rfl⟩
    · simp only [Prod.mk.injEq] at hstep
      obtain ⟨he, hb, -⟩ := hstep
      subst hb
      have hre : rb.pending ++ ' ' :: intToChars ts ++ ['\n']
          = (rb.pending ++ ' ' :: intToChars ts) ++ ['\n'] := by simp
      refine ⟨Or.inr ?_,
        Or.inr ⟨he.symm, ts, rb.pending ++ ' ' :: intToChars ts ++ ['\n'],
          rfl, rfl, by simp, by rw [hre]; exact List.getLast?_concat _, rfl⟩⟩
      show (Buffer.bytes
        ⟨b.bytes ++ (rb.pending ++ ' ' :: intToChars ts ++ ['\n']),
         b.rowCount + 1⟩).getLast? = some '\n'
      have hb2 : b.bytes ++ (rb.pending ++ ' ' :: intToChars ts ++ ['\n'])
          = (b.bytes ++ (rb.pending ++ ' ' :: intToChars ts)) ++ ['\n'] := by
        simp
      show (b.bytes ++ (rb.pending ++ ' ' :: intToChars ts ++ ['\n'])).getLast?
        = some '\n'
      rw [hb2]
      exact List.getLast?_concat _
    · simp only [Prod.mk.injEq] at hstep
      obtain ⟨he, hb, -⟩ := hstep
      subst hb
      have hre : rb.pending ++ ' ' :: intToChars ts ++ ['\n']
          = (rb.pending ++ ' ' :: intToChars ts) ++ ['\n'] := by simp
      refine ⟨Or.inr ?_,
        Or.inr ⟨he.symm, ts, rb.pending ++ ' ' :: intToChars ts ++ ['\n'],
          rfl, rfl, by simp, by rw [hre]; exact List.getLast?_concat _, rfl⟩⟩
      show (b.bytes ++ (rb.pending ++ ' ' :: intToChars ts ++ ['\n'])).getLast?
        = some '\n'
      have hb2 : b.bytes ++ (rb.pending ++ ' ' :: intToChars ts ++ ['\n'])
          = (b.bytes ++ (rb.pending ++ ' ' :: intToChars ts)) ++ ['\n'] := by
        simp
      rw [hb2]
      exact List.getLast?_concat _
    · simp only [Prod.mk.injEq] at hstep
      obtain ⟨-, hb, -⟩ := hstep
      subst hb
      exact ⟨hwf, Or.inl rfl⟩

/-- Witness for C7 at a concrete finalization step. -/
theorem buffer_row_boundary_witness :
    wfBuf (Buffer.mk [] 0) ∧
      ((stepOp (Buffer.mk [] 0) (RowBuilder.mk ['t'] .inSymbols)
          (.opAt 5)).2.1 = Buffer.mk [] 0 ∨
        ((stepOp (Buffer.mk [] 0) (RowBuilder.mk ['t'] .inSymbols)
            (.opAt 5)).1 = none ∧
          ∃ ts chunk, (Op.opAt 5 : Op) = .opAt ts ∧
            (stepOp (Buffer.mk [] 0) (RowBuilder.mk ['t'] .inSymbols)
              (.opAt 5)).2.1.bytes = (Buffer.mk [] 0).bytes ++ chunk ∧
            chunk ≠ [] ∧ chunk.getLast? = some '\n' ∧
            (stepOp (Buffer.mk [] 0) (RowBuilder.mk ['t'] .inSymbols)
              (.opAt 5)).2.1.rowCount = (Buffer.mk [] 0).rowCount + 1)) := by
  have hres := buffer_row_boundary (Buffer.mk [] 0)
    (RowBuilder.mk ['t'] .inSymbols) (.opAt 5)
    (stepOp (Buffer.mk [] 0) (RowBuilder.mk ['t'] .inSymbols) (.opAt 5)).1
    (stepOp (Buffer.mk [] 0) (RowBuilder.mk ['t'] .inSymbols) (.opAt 5)).2.1
    (stepOp (Buffer.mk [] 0) (RowBuilder.mk ['t'] .inSymbols) (.opAt 5)).2.2
    (Or.inl rfl) rfl
  exact ⟨Or.inl rfl, hres.2⟩

end QuestDBClient

namespace QuestDBClient

/-- Claim C3: on a non-empty Buffer, `flush` performs a Transport send
of exactly `peek_bytes()`; when the send succeeds the Buffer is cleared,
and when it fails a `TransportError` is reported while the Buffer's
bytes and row count are exactly unchanged (so `peek_bytes()` agrees
before and after the failed flush). -/
theorem flush_clears_only_on_success (c : Client) (sendOk : Bool)
    (h : c.buf.bytes ≠ []) :
    (∃ pre, (c.flush sendOk).2.transport.calls
        = pre ++ [.sendCall c.buf.peek_bytes]) ∧
    (sendOk = true → (c.flush sendOk).1 = none ∧
      (c.flush sendOk).2.buf.peek_bytes = [] ∧
      (c.flush sendOk).2.buf.rowCount = 0) ∧
    (sendOk = false → (c.flush sendOk).1 = some .transportError ∧
      (c.flush sendOk).2.buf.peek_bytes = c.buf.peek_bytes ∧
      (c.flush sendOk).2.buf.rowCount = c.buf.rowCount) := by
  have hni : c.buf.bytes.isEmpty = false := by
    cases hb : c.buf.bytes with
    | nil => exact absurd hb h
    | cons a l => rfl
  unfold Client.flush
  rw [hni]
  simp only [Bool.false_eq_true, if_false]
  cases sendOk <;> simp [Buffer.peek_bytes, Buffer.clear]

/-- Witness for C3 at a concrete one-row client, exercising both the
successful and the failing send. -/
theorem flush_clears_only_on_success_witness :
    (∃ pre, ((Client.mk ⟨['x', '\n'], 1⟩ ⟨true, []⟩).flush false).2.transport.calls
        = pre ++ [.sendCall (Client.mk ⟨['x', '\n'], 1⟩ ⟨true, []⟩).buf.peek_bytes]) ∧
    (false = true → ((Client.mk ⟨['x', '\n'], 1⟩ ⟨true, []⟩).flush false).1 = none ∧
      ((Client.mk ⟨['x', '\n'], 1⟩ ⟨true, []⟩).flush false).2.buf.peek_bytes = [] ∧
      ((Client.mk ⟨['x', '\n'], 1⟩ ⟨true, []⟩).flush false).2.buf.rowCount = 0) ∧
    (false = false → ((Client.mk ⟨['x', '\n'], 1⟩ ⟨true, []⟩).flush false).1
        = some .transportError ∧
      ((Client.mk ⟨['x', '\n'], 1⟩ ⟨true, []⟩).flush false).2.buf.peek_bytes
        = (Client.mk ⟨['x', '\n'], 1⟩ ⟨true, []⟩).buf.peek_bytes ∧
      ((Client.mk ⟨['x', '\n'], 1⟩ ⟨true, []⟩).flush false).2.buf.rowCount
        = (Client.mk ⟨['x', '\n'], 1⟩ ⟨true, []⟩).buf.rowCount) :=
  flush_clears_only_on_success (Client.mk ⟨['x', '\n'], 1⟩ ⟨true, []⟩) false
    (by decide)

/-- Claim C4: on an empty Buffer, `flush` performs no network call at
all and returns the Client (Buffer and Transport included) unchanged,
reporting no error. -/
theorem flush_empty_noop (c : Client) (sendOk : Bool)
    (h : c.buf.bytes = []) :
    c.flush sendOk = (none, c) ∧
      (c.flush sendOk).2.transport.calls = c.transport.calls ∧
      (c.flush sendOk).2 = c := by
  have hni : c.buf.bytes.isEmpty = true := by rw [h]; rfl
  unfold Client.flush
  rw [hni]
  simp

/-- Witness for C4 at a concrete empty-buffer client. -/
theorem flush_empty_noop_witness :
    (Client.mk ⟨[], 0⟩ ⟨false, []⟩).flush true
        = (none, Client.mk ⟨[], 0⟩ ⟨false, []⟩) ∧
      ((Client.mk ⟨[], 0⟩ ⟨false, []⟩).flush true).2.transport.calls
        = (Client.mk ⟨[], 0⟩ ⟨false, []⟩).transport.calls ∧
      ((Client.mk ⟨[], 0⟩ ⟨false, []⟩).flush true).2
        = Client.mk ⟨[], 0⟩ ⟨false, []⟩ :=
  flush_empty_noop (Client.mk ⟨[], 0⟩ ⟨false, []⟩) true rfl

end QuestDBClient
